import Mathlib

/-!
# The `/tags` handler of the exiftool server

A model of `tagsHandler` (`main.go`): the handler starts `exiftool -listx`, reads its XML
output token by token, and streams one JSON record per tag into the array of
`{"tags":[ ... ]}`.

The handler is embedded together with the three standard-library services it calls:
the response writer (`net/http`, as recorded by `httptest.ResponseRecorder`), the XML
decoder (`encoding/xml`, over the token stream of the subprocess output) and the JSON
encoder (`encoding/json`).  Go strings are Lean strings; a Go `error` is modelled by the
value that decides its `Error()` text.
-/

namespace Exiftool

/-! ## The decoded XML structures (`main.go`, lines 19-35) -/

/-- The struct `Desc`: the `lang` attribute and the character data of a `desc` element. -/
structure Desc where
  Lang : String
  Text : String
deriving DecidableEq, Repr

/-- The struct `Tag`; `Typ` is the field `Type` (the `type` attribute). -/
structure Tag where
  Name : String
  Typ : String
  Writable : String
  Descs : List Desc
deriving DecidableEq, Repr

/-- The struct `Table`. -/
structure Table where
  Name : String
  G0 : String
  Tags : List Tag
deriving DecidableEq, Repr

/-! ## Go maps and the record built for a tag (`main.go`, lines 108-117) -/

/-- A Go map with string keys, as its entries (one per key, in the order of first
assignment; Go itself gives a map no order). -/
abbrev GoMap (α : Type) := List (String × α)

/-- The assignment `m[k] = v`: replaces the entry of `k`, or adds one. -/
def GoMap.set {α : Type} : GoMap α → String → α → GoMap α
  | [], k, v => [(k, v)]
  | (k', v') :: rest, k, v =>
    if k' = k then (k, v) :: rest else (k', v') :: GoMap.set rest k v

/-- The values stored in the `map[string]interface{}` of a record. `nilMap` is a nil
`map[string]string`, which the handler never stores but the encoder would write as
`null`. -/
inductive Value
  | bool (b : Bool)
  | string (s : String)
  | stringMap (m : GoMap String)
  | nilMap
deriving DecidableEq, Repr

/-- The map literal of lines 108-114. -/
def newTag (tbl : Table) (t : Tag) : GoMap Value :=
  [("writable", Value.bool (t.Writable == "true")),
   ("path", Value.string (tbl.Name ++ ":" ++ t.Name)),
   ("group", Value.string (tbl.G0 ++ "::" ++ tbl.Name)),
   ("description", Value.stringMap []),
   ("type", Value.string t.Typ)]

/-- Line 116, `tag["description"].(map[string]string)[d.Lang] = d.Text`; `none` is the
panic of a failed type assertion. -/
def setDescription (tag : GoMap Value) (d : Desc) : Option (GoMap Value) :=
  match tag.lookup "description" with
  | some (Value.stringMap m) =>
    some (GoMap.set tag "description" (Value.stringMap (GoMap.set m d.Lang d.Text)))
  | _ => none

/-- Lines 108-117: the record of tag `t` of table `tbl`, the literal followed by the loop
over `t.Descs`. -/
def buildTag (tbl : Table) (t : Tag) : Option (GoMap Value) :=
  t.Descs.foldlM setDescription (newTag tbl t)

/-! ## `encoding/json`: what `enc.Encode` writes -/

/-- The table `hex` of `encoding/json`. -/
def hexDigit (n : Nat) : Char :=
  if n < 10 then Char.ofNat (48 + n) else Char.ofNat (87 + n)

/-- One character of a string as `appendString` writes it with HTML escaping on (the
default of an `Encoder`). -/
def escapeChar (c : Char) : List Char :=
  if c = '"' then ['\\', '"']
  else if c = '\\' then ['\\', '\\']
  else if c.toNat < 32 then
    if c.toNat = 8 then ['\\', 'b']
    else if c.toNat = 12 then ['\\', 'f']
    else if c = '\n' then ['\\', 'n']
    else if c = '\r' then ['\\', 'r']
    else if c = '\t' then ['\\', 't']
    else ['\\', 'u', '0', '0', hexDigit (c.toNat / 16), hexDigit (c.toNat % 16)]
  else if c = '<' ∨ c = '>' ∨ c = '&' then
    ['\\', 'u', '0', '0', hexDigit (c.toNat / 16), hexDigit (c.toNat % 16)]
  else if c.toNat = 0x2028 ∨ c.toNat = 0x2029 then
    ['\\', 'u', '2', '0', '2', hexDigit (c.toNat % 16)]
  else [c]

/-- The body of a JSON string literal: every character escaped as needed. -/
def escape : List Char → List Char
  | [] => []
  | c :: cs => escapeChar c ++ escape cs

/-- The function `appendString`: a quoted JSON string literal. -/
def quote (s : String) : List Char :=
  '"' :: (escape s.data ++ ['"'])

/-- Byte-wise comparison of two strings (on UTF-8 this is the order of the code points). -/
def bytesLt : List Char → List Char → Bool
  | [], [] => false
  | [], _ :: _ => true
  | _ :: _, [] => false
  | a :: as, b :: bs => decide (a.toNat < b.toNat) || (a == b && bytesLt as bs)

/-- Insertion of one entry into entries sorted by key. -/
def insertKey {α : Type} (e : String × α) : GoMap α → GoMap α
  | [] => [e]
  | e' :: rest => if bytesLt e'.1.data e.1.data then e' :: insertKey e rest else e :: e' :: rest

/-- The entries of a map sorted by key, the order in which the encoder writes them. -/
def sortKeys {α : Type} : GoMap α → GoMap α
  | [] => []
  | e :: rest => insertKey e (sortKeys rest)

/-- The members of a JSON object, separated by commas. -/
def members {α : Type} (val : α → List Char) : GoMap α → List Char
  | [] => []
  | [e] => quote e.1 ++ ':' :: val e.2
  | e :: e' :: rest => quote e.1 ++ ':' :: val e.2 ++ ',' :: members val (e' :: rest)

/-- A JSON object: the braces around its members. -/
def object {α : Type} (val : α → List Char) (m : GoMap α) : List Char :=
  '{' :: (members val (sortKeys m) ++ ['}'])

/-- The JSON text of a value. -/
def Value.marshal : Value → List Char
  | Value.bool true => ['t', 'r', 'u', 'e']
  | Value.bool false => ['f', 'a', 'l', 's', 'e']
  | Value.string s => quote s
  | Value.stringMap m => object quote m
  | Value.nilMap => ['n', 'u', 'l', 'l']

/-- The JSON text of a record: an object with the keys sorted. -/
def marshal (tag : GoMap Value) : List Char :=
  object Value.marshal tag

/-- What `enc.Encode(tag)` writes: the JSON text followed by a line feed. -/
def Encode (tag : GoMap Value) : String :=
  String.mk (marshal tag ++ ['\n'])

/-! ## `net/http`: the response writer -/

/-- One call of `Write` on the response, by the place of the call. -/
inductive Chunk
  | opening
  | comma
  | record (tag : GoMap Value)
  | closing
  | errorText (error : String)
deriving DecidableEq, Repr

/-- The bytes of a write: the literals of lines 43, 105 and 86, the output of `Encode`,
and the line that `http.Error` prints. -/
def Chunk.bytes : Chunk → String
  | Chunk.opening => "\x7b\"tags\":["
  | Chunk.comma => ","
  | Chunk.record tag => Encode tag
  | Chunk.closing => "]\x7d"
  | Chunk.errorText error => error ++ "\n"

/-- The response as `httptest.ResponseRecorder` records it: the status code, whether the
header is written, and the writes to the body. -/
structure ResponseRecorder where
  Code : Nat
  wroteHeader : Bool
  writes : List Chunk
deriving DecidableEq, Repr

/-- The function `httptest.NewRecorder`. -/
def NewRecorder : ResponseRecorder :=
  { Code := 200, wroteHeader := false, writes := [] }

/-- The method `WriteHeader`: the first call fixes the status code, later calls are
ignored. -/
def ResponseRecorder.WriteHeader (w : ResponseRecorder) (code : Nat) : ResponseRecorder :=
  if w.wroteHeader then w else { w with Code := code, wroteHeader := true }

/-- The method `Write`: writes the header with status 200 if it is not written yet, then
appends to the body. -/
def ResponseRecorder.Write (w : ResponseRecorder) (c : Chunk) : ResponseRecorder :=
  let w := w.WriteHeader 200
  { w with writes := w.writes ++ [c] }

/-- The function `http.Error`: `WriteHeader(code)` then the error text and a line feed. -/
def Error (w : ResponseRecorder) (error : String) (code : Nat) : ResponseRecorder :=
  (w.WriteHeader code).Write (Chunk.errorText error)

/-- The bytes of a sequence of writes, one after the other. -/
def bodyOf : List Chunk → String
  | [] => ""
  | c :: cs => c.bytes ++ bodyOf cs

/-- The bytes of the body. -/
def ResponseRecorder.Body (w : ResponseRecorder) : String :=
  bodyOf w.writes

/-! ## `encoding/xml`: the token reader -/

/-- The struct `xml.Name`. -/
structure Name where
  Space : String
  Local : String
deriving DecidableEq, Repr

/-- The struct `xml.Attr`. -/
structure Attr where
  Name : Name
  Value : String
deriving DecidableEq, Repr

/-- The interface `xml.Token`. -/
inductive Token
  | StartElement (Name : Name) (Attr : List Attr)
  | EndElement (Name : Name)
  | CharData (data : String)
  | Comment (data : String)
  | ProcInst (Target : String) (Inst : String)
  | Directive (data : String)
deriving DecidableEq, Repr

/-- The errors a decoder returns: `io.EOF`, an `xml.SyntaxError`, or any other error
(a failed read of the pipe, say) with its text. -/
inductive Err
  | EOF
  | SyntaxError (Msg : String) (Line : Nat)
  | other (text : String)
deriving DecidableEq, Repr

/-- The method `Error()` of an error. -/
def Err.Error : Err → String
  | Err.EOF => "EOF"
  | Err.SyntaxError msg line => "XML syntax error on line " ++ toString line ++ ": " ++ msg
  | Err.other text => text

/-- What the decoder reads next from the output of the subprocess: a token, with the line
the reader has reached, or a failure (text that is no XML, a read error, and also what
this decoder refuses of well-formed XML: a version other than 1.0, an encoding other than
UTF-8, an entity it does not know). The end of the list is the end of the output. -/
inductive Raw
  | tok (line : Nat) (t : Token)
  | fail (e : Err)
deriving DecidableEq, Repr

/-- The state of an `xml.Decoder`: the input left, the open elements, the stored error
and the line counter. -/
structure Decoder where
  input : List Raw
  stk : List Name
  err : Option Err
  line : Nat
deriving DecidableEq, Repr

/-- The function `xml.NewDecoder`. -/
def NewDecoder (r : List Raw) : Decoder :=
  { input := r, stk := [], err := none, line := 1 }

/-- The method `rawToken`: a stored error is returned again; otherwise the next token is
read, and a failure of the read is stored. -/
def Decoder.rawToken (d : Decoder) : Except Err Token × Decoder :=
  match d.err with
  | some e => (Except.error e, d)
  | none =>
    match d.input with
    | [] => (Except.error Err.EOF, { d with err := some Err.EOF })
    | Raw.fail e :: rest => (Except.error e, { d with input := rest, err := some e })
    | Raw.tok line t :: rest => (Except.ok t, { d with input := rest, line := line })

/-- The method `Token`: the next token, with the nesting of elements checked (a strict
decoder). The end of the input inside an open element is a syntax error. -/
def Decoder.Token (d : Decoder) : Except Err Token × Decoder :=
  match d.rawToken with
  | (Except.error e, d') =>
    if e = Err.EOF ∧ d'.stk ≠ [] then
      (Except.error (Err.SyntaxError "unexpected EOF" d'.line), d')
    else (Except.error e, d')
  | (Except.ok (Token.StartElement name attr), d') =>
    (Except.ok (Token.StartElement name attr), { d' with stk := name :: d'.stk })
  | (Except.ok (Token.EndElement name), d') =>
    match d'.stk with
    | [] =>
      let e := Err.SyntaxError ("unexpected end element </" ++ name.Local ++ ">") d'.line
      (Except.error e, { d' with err := some e })
    | s :: stk =>
      if s.Local ≠ name.Local then
        let e := Err.SyntaxError
          ("element <" ++ s.Local ++ "> closed by </" ++ name.Local ++ ">") d'.line
        (Except.error e, { d' with stk := stk, err := some e })
      else if s.Space ≠ name.Space then
        let e := Err.SyntaxError
          ("element <" ++ s.Local ++ "> in space " ++ s.Space ++
            " closed by </" ++ name.Local ++ "> in space " ++
            (if name.Space = "" then "\"\"" else name.Space)) d'.line
        (Except.error e, { d' with stk := stk, err := some e })
      else (Except.ok (Token.EndElement name), { d' with stk := stk })
  | (Except.ok t, d') => (Except.ok t, d')

/-- The loop of the method `Skip`, run at most `fuel` times: reads to the end of the
element that is open, `depth` counting the elements opened on the way. -/
def Decoder.skipLoop : Nat → Decoder → Nat → Option Err × Decoder
  | 0, d, _ => (none, d)
  | fuel + 1, d, depth =>
    match d.Token with
    | (Except.error e, d') => (some e, d')
    | (Except.ok (Token.StartElement _ _), d') => Decoder.skipLoop fuel d' (depth + 1)
    | (Except.ok (Token.EndElement _), d') =>
      if depth = 0 then (none, d') else Decoder.skipLoop fuel d' (depth - 1)
    | (Except.ok _, d') => Decoder.skipLoop fuel d' depth

/-- The method `Skip`. Every turn of the loop reads a token or returns, so one turn more
than the input is long is never used up. -/
def Decoder.Skip (d : Decoder) : Option Err × Decoder :=
  d.skipLoop (d.input.length + 1) 0

/-- The value of the attribute `name` among the attributes of a start element, as
`unmarshal` assigns it to a string field: the last one of that local name, or the zero
value. -/
def attrValue (name : String) (attrs : List Attr) : String :=
  attrs.foldl (fun v a => if a.Name.Local = name then a.Value else v) ""

/-- The loop of `unmarshal` inside a `desc` element: the character data is collected, any
child element is skipped. -/
def Decoder.descLoop : Nat → Decoder → String → Except Err String × Decoder
  | 0, d, data => (Except.ok data, d)
  | fuel + 1, d, data =>
    match d.Token with
    | (Except.error e, d') => (Except.error e, d')
    | (Except.ok (Token.StartElement _ _), d') =>
      match d'.Skip with
      | (some e, d'') => (Except.error e, d'')
      | (none, d'') => Decoder.descLoop fuel d'' data
    | (Except.ok (Token.EndElement _), d') => (Except.ok data, d')
    | (Except.ok (Token.CharData s), d') => Decoder.descLoop fuel d' (data ++ s)
    | (Except.ok _, d') => Decoder.descLoop fuel d' data

/-- The method `unmarshal` into a `Desc`, the start element already read. -/
def Decoder.unmarshalDesc (d : Decoder) (attr : List Attr) : Except Err Desc × Decoder :=
  match d.descLoop (d.input.length + 1) "" with
  | (Except.ok data, d') => (Except.ok { Lang := attrValue "lang" attr, Text := data }, d')
  | (Except.error e, d') => (Except.error e, d')

/-- The loop of `unmarshal` inside a `tag` element: a `desc` child is decoded and
appended to `Descs`, any other child element is skipped. -/
def Decoder.tagLoop : Nat → Decoder → List Desc → Except Err (List Desc) × Decoder
  | 0, d, descs => (Except.ok descs, d)
  | fuel + 1, d, descs =>
    match d.Token with
    | (Except.error e, d') => (Except.error e, d')
    | (Except.ok (Token.StartElement name attr), d') =>
      if name.Local = "desc" then
        match d'.unmarshalDesc attr with
        | (Except.error e, d'') => (Except.error e, d'')
        | (Except.ok desc, d'') => Decoder.tagLoop fuel d'' (descs ++ [desc])
      else
        match d'.Skip with
        | (some e, d'') => (Except.error e, d'')
        | (none, d'') => Decoder.tagLoop fuel d'' descs
    | (Except.ok (Token.EndElement _), d') => (Except.ok descs, d')
    | (Except.ok _, d') => Decoder.tagLoop fuel d' descs

/-- The method `unmarshal` into a `Tag`, the start element already read. -/
def Decoder.unmarshalTag (d : Decoder) (attr : List Attr) : Except Err Tag × Decoder :=
  match d.tagLoop (d.input.length + 1) [] with
  | (Except.ok descs, d') =>
    (Except.ok { Name := attrValue "name" attr, Typ := attrValue "type" attr,
                 Writable := attrValue "writable" attr, Descs := descs }, d')
  | (Except.error e, d') => (Except.error e, d')

/-- The loop of `unmarshal` inside a `table` element: a `tag` child is decoded and
appended to `Tags`, any other child element is skipped. -/
def Decoder.tableLoop : Nat → Decoder → List Tag → Except Err (List Tag) × Decoder
  | 0, d, tags => (Except.ok tags, d)
  | fuel + 1, d, tags =>
    match d.Token with
    | (Except.error e, d') => (Except.error e, d')
    | (Except.ok (Token.StartElement name attr), d') =>
      if name.Local = "tag" then
        match d'.unmarshalTag attr with
        | (Except.error e, d'') => (Except.error e, d'')
        | (Except.ok tag, d'') => Decoder.tableLoop fuel d'' (tags ++ [tag])
      else
        match d'.Skip with
        | (some e, d'') => (Except.error e, d'')
        | (none, d'') => Decoder.tableLoop fuel d'' tags
    | (Except.ok (Token.EndElement _), d') => (Except.ok tags, d')
    | (Except.ok _, d') => Decoder.tableLoop fuel d' tags

/-- The call `decoder.DecodeElement(&tbl, &se)` of line 99, for the start element with
attributes `attr`. -/
def Decoder.DecodeElement (d : Decoder) (attr : List Attr) : Except Err Table × Decoder :=
  match d.tableLoop (d.input.length + 1) [] with
  | (Except.ok tags, d') =>
    (Except.ok { Name := attrValue "name" attr, G0 := attrValue "g0" attr, Tags := tags }, d')
  | (Except.error e, d') => (Except.error e, d')

/-! ## The handler (`main.go`, lines 37-129) -/

/-- What a run of the handler meets: the errors of `cmd.StdoutPipe()` and `cmd.Start()`
if they fail, the output of the subprocess as the decoder reads it, and, if the request
is cancelled, the turn of the token loop (counted from 0) at whose check of line 76
`ctx.Done()` is first ready: the request was then cancelled after the check of the turn
before, while that turn ran. A run that returns before this check does not observe the
cancellation; its `stdout` is what the decoder reads of a subprocess that its context
kills. -/
structure Env where
  pipeErr : Option String
  startErr : Option String
  stdout : List Raw
  doneAt : Option Nat

/-- How the handler returned. -/
inductive Exit
  | pipeFailed
  | startFailed
  | cancelled
  | finished
  | parseError
  | panicked
deriving DecidableEq, Repr

/-- The state of a run: the response, the variable `first`, the decoder, the number of
turns of the token loop begun, whether `cmd.Process.Kill()` was called, and how the
handler returned once it has. -/
structure Handler where
  w : ResponseRecorder
  first : Bool
  decoder : Decoder
  iter : Nat
  killed : Bool
  exit : Option Exit
deriving DecidableEq, Repr

/-- The body of the loop of line 103 for one tag (lines 104-120). -/
def emitTag (tbl : Table) (h : Handler) (t : Tag) : Handler :=
  match h.exit with
  | some _ => h
  | none =>
    let w := if !h.first then h.w.Write Chunk.comma else h.w
    match buildTag tbl t with
    | none => { h with w := w, first := false, exit := some Exit.panicked }
    | some tag => { h with w := w.Write (Chunk.record tag), first := false }

/-- The loop of line 103 over the tags of a decoded table. -/
def emitTable (h : Handler) (tbl : Table) : Handler :=
  tbl.Tags.foldl (emitTag tbl) h

/-- Lines 39-71: the opening is written, then the subprocess is started, and a failure
is reported with `http.Error`. -/
def start (env : Env) : Handler :=
  let w := NewRecorder.Write Chunk.opening
  let h : Handler := { w := w, first := true, decoder := NewDecoder env.stdout, iter := 0,
                       killed := false, exit := none }
  match env.pipeErr with
  | some err =>
    { h with w := Error w ("Failed to get stdout pipe: " ++ err) 500,
             exit := some Exit.pipeFailed }
  | none =>
    match env.startErr with
    | some err =>
      { h with w := Error w ("Failed to start exiftool: " ++ err) 500,
               exit := some Exit.startFailed }
    | none => h

/-- Whether `ctx.Done()` is ready at turn `i` of the token loop. -/
def ctxDone (env : Env) (i : Nat) : Bool :=
  match env.doneAt with
  | some k => decide (k ≤ i)
  | none => false

/-- One turn of the loop of line 74; a handler that has returned stays as it is. -/
def iteration (env : Env) (h : Handler) : Handler :=
  match h.exit with
  | some _ => h
  | none =>
    if ctxDone env h.iter then { h with killed := true, exit := some Exit.cancelled }
    else
      let h := { h with iter := h.iter + 1 }
      match h.decoder.Token with
      | (Except.error err, d) =>
        if err.Error = "EOF" then
          { h with decoder := d, w := h.w.Write Chunk.closing, exit := some Exit.finished }
        else
          { h with decoder := d, w := Error h.w ("Error parsing XML: " ++ err.Error) 500,
                   exit := some Exit.parseError }
      | (Except.ok (Token.StartElement name attr), d) =>
        if name.Local = "table" then
          match d.DecodeElement attr with
          | (Except.error _, d') => { h with decoder := d' }
          | (Except.ok tbl, d') => emitTable { h with decoder := d' } tbl
        else { h with decoder := d }
      | (Except.ok _, d) => { h with decoder := d }

/-- The run after `n` turns of the token loop. -/
def tagsHandlerAt (env : Env) (n : Nat) : Handler :=
  (iteration env)^[n] (start env)

/-- The function `tagsHandler`: the run to its return. Every turn of the token loop
returns or reads a token, so the loop takes at most one turn more than the output is
long. -/
def tagsHandler (env : Env) : Handler :=
  tagsHandlerAt env (env.stdout.length + 1)

/-! ## Documents: well-formed output of the subprocess -/

/-- An output that the decoder reads to its end as well-nested tokens: a sequence of XML
nodes, each with its later siblings. An element has its name, its attributes, its
children and the lines the reader has reached after its start and end tags; the other
nodes are character data, comments, processing instructions and directives. -/
inductive Forest
  | nil
  | elem (line : Nat) (name : Name) (attr : List Attr) (children : Forest) (endLine : Nat)
      (next : Forest)
  | text (line : Nat) (data : String) (next : Forest)
  | comment (line : Nat) (data : String) (next : Forest)
  | procInst (line : Nat) (target : String) (inst : String) (next : Forest)
  | directive (line : Nat) (data : String) (next : Forest)
deriving DecidableEq, Repr

/-- The tokens the decoder reads from a document, in document order. -/
def Forest.flat : Forest → List Raw
  | Forest.nil => []
  | Forest.elem l n a ch l' nx =>
    Raw.tok l (Token.StartElement n a) :: (ch.flat ++ Raw.tok l' (Token.EndElement n) :: nx.flat)
  | Forest.text l s nx => Raw.tok l (Token.CharData s) :: nx.flat
  | Forest.comment l s nx => Raw.tok l (Token.Comment s) :: nx.flat
  | Forest.procInst l t i nx => Raw.tok l (Token.ProcInst t i) :: nx.flat
  | Forest.directive l s nx => Raw.tok l (Token.Directive s) :: nx.flat

/-- The line the reader has reached after a document, having been at line `l` before. -/
def Forest.lastLine : Forest → Nat → Nat
  | Forest.nil, l => l
  | Forest.elem _ _ _ _ l' nx, _ => nx.lastLine l'
  | Forest.text l _ nx, _ => nx.lastLine l
  | Forest.comment l _ nx, _ => nx.lastLine l
  | Forest.procInst l _ _ nx, _ => nx.lastLine l
  | Forest.directive l _ nx, _ => nx.lastLine l

/-- The character data directly inside an element with these children. -/
def Forest.chardata : Forest → String
  | Forest.nil => ""
  | Forest.elem _ _ _ _ _ nx => nx.chardata
  | Forest.text _ s nx => s ++ nx.chardata
  | Forest.comment _ _ nx => nx.chardata
  | Forest.procInst _ _ _ nx => nx.chardata
  | Forest.directive _ _ nx => nx.chardata

/-- The `desc` elements among these children (not below them), in order, as
`DecodeElement` fills `Descs`. -/
def Forest.descs : Forest → List Desc
  | Forest.nil => []
  | Forest.elem _ n a ch _ nx =>
    if n.Local = "desc" then { Lang := attrValue "lang" a, Text := ch.chardata } :: nx.descs
    else nx.descs
  | Forest.text _ _ nx => nx.descs
  | Forest.comment _ _ nx => nx.descs
  | Forest.procInst _ _ _ nx => nx.descs
  | Forest.directive _ _ nx => nx.descs

/-- The `tag` elements among these children (not below them), in order, as
`DecodeElement` fills `Tags`: a `tag` element deeper inside is not among them. -/
def Forest.tags : Forest → List Tag
  | Forest.nil => []
  | Forest.elem _ n a ch _ nx =>
    if n.Local = "tag" then
      { Name := attrValue "name" a, Typ := attrValue "type" a,
        Writable := attrValue "writable" a, Descs := ch.descs } :: nx.tags
    else nx.tags
  | Forest.text _ _ nx => nx.tags
  | Forest.comment _ _ nx => nx.tags
  | Forest.procInst _ _ _ nx => nx.tags
  | Forest.directive _ _ nx => nx.tags

/-- The tables the token loop decodes: the `table` elements of a document in document
order, at any depth but not inside another `table` element (such an element is read
over by `DecodeElement` of the outer one), each with the `tag` elements that are its
children. -/
def Forest.tables : Forest → List Table
  | Forest.nil => []
  | Forest.elem _ n a ch _ nx =>
    if n.Local = "table" then
      { Name := attrValue "name" a, G0 := attrValue "g0" a, Tags := ch.tags } :: nx.tables
    else ch.tables ++ nx.tables
  | Forest.text _ _ nx => nx.tables
  | Forest.comment _ _ nx => nx.tables
  | Forest.procInst _ _ _ nx => nx.tables
  | Forest.directive _ _ nx => nx.tables

/-- The number of `tag` elements among these children (not below them). -/
def Forest.countTags : Forest → Nat
  | Forest.nil => 0
  | Forest.elem _ n _ _ _ nx => if n.Local = "tag" then nx.countTags + 1 else nx.countTags
  | Forest.text _ _ nx => nx.countTags
  | Forest.comment _ _ nx => nx.countTags
  | Forest.procInst _ _ _ nx => nx.countTags
  | Forest.directive _ _ nx => nx.countTags

/-- The number of `tag` elements that are children of a `table` element that is not
inside another `table` element: the tags of `Forest.tables`. -/
def Forest.countTableTags : Forest → Nat
  | Forest.nil => 0
  | Forest.elem _ n _ ch _ nx =>
    if n.Local = "table" then ch.countTags + nx.countTableTags
    else ch.countTableTags + nx.countTableTags
  | Forest.text _ _ nx => nx.countTableTags
  | Forest.comment _ _ nx => nx.countTableTags
  | Forest.procInst _ _ _ nx => nx.countTableTags
  | Forest.directive _ _ nx => nx.countTableTags

/-- The number of `tag` elements in a sequence of nodes, at any depth. -/
def Forest.countAllTags : Forest → Nat
  | Forest.nil => 0
  | Forest.elem _ n _ ch _ nx =>
    (if n.Local = "tag" then 1 else 0) + ch.countAllTags + nx.countAllTags
  | Forest.text _ _ nx => nx.countAllTags
  | Forest.comment _ _ nx => nx.countAllTags
  | Forest.procInst _ _ _ nx => nx.countAllTags
  | Forest.directive _ _ nx => nx.countAllTags

/-- The number of `tag` elements nested within `table` elements, at any depth: every
`tag` element that has a `table` element above it, counted once. -/
def Forest.countNestedTags : Forest → Nat
  | Forest.nil => 0
  | Forest.elem _ n _ ch _ nx =>
    (if n.Local = "table" then ch.countAllTags else ch.countNestedTags) + nx.countNestedTags
  | Forest.text _ _ nx => nx.countNestedTags
  | Forest.comment _ _ nx => nx.countNestedTags
  | Forest.procInst _ _ _ nx => nx.countNestedTags
  | Forest.directive _ _ nx => nx.countNestedTags

/-- The number of nodes of a sequence, their children not counted. -/
def Forest.count : Forest → Nat
  | Forest.nil => 0
  | Forest.elem _ _ _ _ _ nx => nx.count + 1
  | Forest.text _ _ nx => nx.count + 1
  | Forest.comment _ _ nx => nx.count + 1
  | Forest.procInst _ _ _ nx => nx.count + 1
  | Forest.directive _ _ nx => nx.count + 1

/-- The turns of the token loop a document takes: one for each token outside the `table`
elements, one for each `table` element. -/
def Forest.turns : Forest → Nat
  | Forest.nil => 0
  | Forest.elem _ n _ ch _ nx =>
    if n.Local = "table" then nx.turns + 1 else ch.turns + nx.turns + 2
  | Forest.text _ _ nx => nx.turns + 1
  | Forest.comment _ _ nx => nx.turns + 1
  | Forest.procInst _ _ _ nx => nx.turns + 1
  | Forest.directive _ _ nx => nx.turns + 1

/-! ## Reading the response -/

/-- The records a response holds: the record writes, in order. -/
def records : List Chunk → List (GoMap Value)
  | [] => []
  | Chunk.record tag :: rest => tag :: records rest
  | _ :: rest => records rest

/-- The number of separating commas written. -/
def commas (cs : List Chunk) : Nat :=
  cs.count Chunk.comma

/-- The writes of an array of records: a comma before every record but the first. -/
def separated : List (GoMap Value) → List Chunk
  | [] => []
  | tag :: rest => Chunk.record tag :: rest.flatMap (fun t => [Chunk.comma, Chunk.record t])

/-- The map a description loop builds from the entries of a tag. -/
def descriptions (ds : List Desc) : GoMap String :=
  ds.foldl (fun m d => GoMap.set m d.Lang d.Text) []

/-- A JSON value as a reader of the response sees it (numbers do not occur). -/
inductive Json
  | null
  | bool (b : Bool)
  | str (s : String)
  | arr (items : List Json)
  | obj (members : List (String × Json))

/-- JSON white space. -/
def isSpace (c : Char) : Bool :=
  c = ' ' || c = '\t' || c = '\n' || c = '\r'

/-- The text after leading white space. -/
def skipSpace : List Char → List Char
  | [] => []
  | c :: cs => if isSpace c then skipSpace cs else c :: cs

/-- The value of a hexadecimal digit. -/
def hexValue (c : Char) : Option Nat :=
  if 48 ≤ c.toNat ∧ c.toNat ≤ 57 then some (c.toNat - 48)
  else if 97 ≤ c.toNat ∧ c.toNat ≤ 102 then some (c.toNat - 87)
  else if 65 ≤ c.toNat ∧ c.toNat ≤ 70 then some (c.toNat - 55)
  else none

/-- The value of four hexadecimal digits. -/
def hex4 (a b c d : Char) : Option Nat :=
  match hexValue a, hexValue b, hexValue c, hexValue d with
  | some a, some b, some c, some d => some (((a * 16 + b) * 16 + c) * 16 + d)
  | _, _, _, _ => none

/-- Puts a character in front of the string read after it. -/
def push (c : Char) : Option (List Char × List Char) → Option (List Char × List Char)
  | some (s, rest) => some (c :: s, rest)
  | none => none

/-- Reads a JSON string after its opening quote: the characters it denotes and the text
after its closing quote. Control characters must be escaped; an escape of half a
surrogate pair is not read. -/
def readString : List Char → Option (List Char × List Char)
  | [] => none
  | c :: rest =>
    if c = '"' then some ([], rest)
    else if c = '\\' then
      match rest with
      | [] => none
      | e :: rest' =>
        if e = '"' then push '"' (readString rest')
        else if e = '\\' then push '\\' (readString rest')
        else if e = '/' then push '/' (readString rest')
        else if e = 'b' then push (Char.ofNat 8) (readString rest')
        else if e = 'f' then push (Char.ofNat 12) (readString rest')
        else if e = 'n' then push '\n' (readString rest')
        else if e = 'r' then push '\r' (readString rest')
        else if e = 't' then push '\t' (readString rest')
        else if e = 'u' then
          match rest' with
          | a :: b :: c :: d :: rest'' =>
            match hex4 a b c d with
            | some n =>
              if n < 0xd800 ∨ 0xdfff < n then push (Char.ofNat n) (readString rest'') else none
            | none => none
          | _ => none
        else none
    else if c.toNat < 32 then none
    else push c (readString rest)

/-- The text after the literal `lit`, if the text starts with it. -/
def stripLit : List Char → List Char → Option (List Char)
  | [], cs => some cs
  | _ :: _, [] => none
  | l :: lit, c :: cs => if l = c then stripLit lit cs else none

mutual
/-- Reads one JSON value, white space before it allowed, in at most `fuel` nested
calls: the value and the text after it. -/
def readValue : Nat → List Char → Option (Json × List Char)
  | 0, _ => none
  | fuel + 1, cs =>
    match skipSpace cs with
    | [] => none
    | c :: rest =>
      if c = '"' then
        match readString rest with
        | some (s, rest') => some (Json.str (String.mk s), rest')
        | none => none
      else if c = '[' then
        match skipSpace rest with
        | [] => none
        | c' :: rest' =>
          if c' = ']' then some (Json.arr [], rest')
          else
            match readItems fuel (c' :: rest') with
            | some (items, rest'') => some (Json.arr items, rest'')
            | none => none
      else if c = '{' then
        match skipSpace rest with
        | [] => none
        | c' :: rest' =>
          if c' = '}' then some (Json.obj [], rest')
          else
            match readMembers fuel (c' :: rest') with
            | some (ms, rest'') => some (Json.obj ms, rest'')
            | none => none
      else
        match stripLit ['t', 'r', 'u', 'e'] (c :: rest) with
        | some rest' => some (Json.bool true, rest')
        | none =>
          match stripLit ['f', 'a', 'l', 's', 'e'] (c :: rest) with
          | some rest' => some (Json.bool false, rest')
          | none =>
            match stripLit ['n', 'u', 'l', 'l'] (c :: rest) with
            | some rest' => some (Json.null, rest')
            | none => none
/-- Reads the items of an array up to its closing bracket. -/
def readItems : Nat → List Char → Option (List Json × List Char)
  | 0, _ => none
  | fuel + 1, cs =>
    match readValue fuel cs with
    | none => none
    | some (v, rest) =>
      match skipSpace rest with
      | [] => none
      | c :: rest' =>
        if c = ',' then
          match readItems fuel rest' with
          | some (vs, rest'') => some (v :: vs, rest'')
          | none => none
        else if c = ']' then some ([v], rest')
        else none
/-- Reads the members of an object up to its closing brace. -/
def readMembers : Nat → List Char → Option (List (String × Json) × List Char)
  | 0, _ => none
  | fuel + 1, cs =>
    match skipSpace cs with
    | [] => none
    | q :: rest =>
      if q = '"' then
        match readString rest with
        | none => none
        | some (k, rest1) =>
          match skipSpace rest1 with
          | [] => none
          | c :: rest2 =>
            if c = ':' then
              match readValue fuel rest2 with
              | none => none
              | some (v, rest3) =>
                match skipSpace rest3 with
                | [] => none
                | c' :: rest4 =>
                  if c' = ',' then
                    match readMembers fuel rest4 with
                    | some (ms, rest5) => some ((String.mk k, v) :: ms, rest5)
                    | none => none
                  else if c' = '}' then some ([(String.mk k, v)], rest4)
                  else none
            else none
      else none
end

/-- Reads a text as one JSON value with nothing but white space after it. -/
def parseJson (s : String) : Option Json :=
  match readValue (s.length + 1) s.data with
  | some (v, rest) => if skipSpace rest = [] then some v else none
  | none => none

/-- The JSON value of a value of a record. -/
def Value.toJson : Value → Json
  | Value.bool b => Json.bool b
  | Value.string s => Json.str s
  | Value.stringMap m => Json.obj ((sortKeys m).map (fun e => (e.1, Json.str e.2)))
  | Value.nilMap => Json.null

/-- The JSON object of a record. -/
def toJson (tag : GoMap Value) : Json :=
  Json.obj ((sortKeys tag).map (fun e => (e.1, e.2.toJson)))

/-! ## Invariants of a run -/

/-- The record of a tag as a value: the five entries of lines 108-117. -/
def tagRecord (tbl : Table) (t : Tag) : GoMap Value :=
  [("writable", Value.bool (t.Writable == "true")),
   ("path", Value.string (tbl.Name ++ ":" ++ t.Name)),
   ("group", Value.string (tbl.G0 ++ "::" ++ tbl.Name)),
   ("description", Value.stringMap (descriptions t.Descs)),
   ("type", Value.string t.Typ)]

/-- The writes that follow the array, by the way the handler returned: nothing while it
runs and after a cancellation, the closing after the end of the input, the text of
`http.Error` after a failure. -/
def Tail : Option Exit → List Chunk → Prop
  | none, tail => tail = []
  | some Exit.cancelled, tail => tail = []
  | some Exit.finished, tail => tail = [Chunk.closing]
  | some Exit.panicked, _ => False
  | some Exit.parseError, tail => ∃ e, tail = [Chunk.errorText e]
  | some Exit.pipeFailed, tail => ∃ e, tail = [Chunk.errorText e]
  | some Exit.startFailed, tail => ∃ e, tail = [Chunk.errorText e]

/-- The shape of the response with the records `recs` written: status 200, the opening,
the records separated by commas, and what follows the array. -/
def Shape (h : Handler) (recs : List (GoMap Value)) (tail : List Chunk) : Prop :=
  h.w.Code = 200 ∧ h.w.wroteHeader = true ∧
  h.w.writes = Chunk.opening :: (separated recs ++ tail) ∧
  (h.first = true ↔ recs = []) ∧
  (∀ r ∈ recs, ∃ tbl t, r = tagRecord tbl t) ∧
  Tail h.exit tail

/-- A write of a record. -/
def Chunk.isRecord : Chunk → Bool
  | Chunk.record _ => true
  | _ => false

/-- Two writes that may follow each other: a comma comes after a record and before a
record. -/
def Adjacent (a b : Chunk) : Prop :=
  (b = Chunk.comma → a.isRecord = true) ∧ (a = Chunk.comma → b.isRecord = true)

/-- The response and the variable `first` after the loop of line 103 has written the
records `recs`. -/
def writeRecords (out : ResponseRecorder × Bool) (recs : List (GoMap Value)) :
    ResponseRecorder × Bool :=
  recs.foldl (fun o r =>
    ((if o.2 then o.1 else o.1.Write Chunk.comma).Write (Chunk.record r), false)) out

/-- The records of the tags of a sequence of tables, in order. -/
def recordsOf (tables : List Table) : List (GoMap Value) :=
  tables.flatMap (fun tbl => tbl.Tags.map (tagRecord tbl))

/-- A text the reader reads as the value `v`, whatever follows it, when it may nest
calls at least as deep as the text is long. -/
def Reads (text : List Char) (v : Json) : Prop :=
  ∀ fuel rest, text.length ≤ fuel → readValue fuel (text ++ rest) = some (v, rest)

/-- The text of the records after the first in the array: each after a comma, each
followed by its line feed. -/
def laterItems (recs : List (GoMap Value)) : List Char :=
  recs.flatMap (fun r => ',' :: (marshal r ++ ['\n']))

/-- The text between the brackets of the array. -/
def arrayText : List (GoMap Value) → List Char
  | [] => []
  | r :: rs => marshal r ++ '\n' :: laterItems rs

/-- Writes that are neither commas nor records: what follows the array. -/
def Plain (tail : List Chunk) : Prop :=
  ∀ c ∈ tail, c ≠ Chunk.comma ∧ c.isRecord = false

/-! ## Example runs -/

/-- A name without a namespace. -/
def localName (s : String) : Name :=
  { Space := "", Local := s }

/-- An attribute without a namespace. -/
def attrOf (name : String) (value : String) : Attr :=
  { Name := localName name, Value := value }

/-- The scenario document, written on one line:
`<taginfo><table name="EXIF" g0="Image"><tag name="Width" type="int16u" writable="true">`
`<desc lang="en">Image width</desc></tag></table></taginfo>`. -/
def exifDoc : Forest :=
  Forest.elem 1 (localName "taginfo") []
    (Forest.elem 1 (localName "table") [attrOf "name" "EXIF", attrOf "g0" "Image"]
      (Forest.elem 1 (localName "tag")
        [attrOf "name" "Width", attrOf "type" "int16u", attrOf "writable" "true"]
        (Forest.elem 1 (localName "desc") [attrOf "lang" "en"]
          (Forest.text 1 "Image width" Forest.nil) 1 Forest.nil)
        1 Forest.nil)
      1 Forest.nil)
    1 Forest.nil

/-- The run on a well-formed document: the subprocess starts and writes the document,
the request is not cancelled. -/
def docEnv (f : Forest) : Env :=
  { pipeErr := none, startErr := none, stdout := f.flat, doneAt := none }

/-- The run of the scenario: the subprocess starts and writes `exifDoc`, the request is
not cancelled. -/
def exifEnv : Env :=
  { pipeErr := none, startErr := none, stdout := exifDoc.flat, doneAt := none }

/-- The run of the scenario with the request cancelled at turn 2 of the token loop, after
the record is written. -/
def cancelledEnv : Env :=
  { pipeErr := none, startErr := none, stdout := exifDoc.flat, doneAt := some 2 }

/-- A document with tags below the children of a table, written on one line:
`<table name="T"><group><tag name="hidden"></tag></group>`
`<tag name="outer"><tag name="inner"></tag></tag>`
`<table name="U"><tag name="intable"></tag></table></table>`. -/
def nestedDoc : Forest :=
  Forest.elem 1 (localName "table") [attrOf "name" "T"]
    (Forest.elem 1 (localName "group") []
      (Forest.elem 1 (localName "tag") [attrOf "name" "hidden"] Forest.nil 1 Forest.nil) 1
    (Forest.elem 1 (localName "tag") [attrOf "name" "outer"]
      (Forest.elem 1 (localName "tag") [attrOf "name" "inner"] Forest.nil 1 Forest.nil) 1
    (Forest.elem 1 (localName "table") [attrOf "name" "U"]
      (Forest.elem 1 (localName "tag") [attrOf "name" "intable"] Forest.nil 1 Forest.nil) 1
    Forest.nil)))
    1 Forest.nil

/-- A document with one table of two tags, written on one line:
`<taginfo><table name="T" g0="G"><tag name="a"></tag><tag name="b"></tag></table></taginfo>`. -/
def twoTagsDoc : Forest :=
  Forest.elem 1 (localName "taginfo") []
    (Forest.elem 1 (localName "table") [attrOf "name" "T", attrOf "g0" "G"]
      (Forest.elem 1 (localName "tag") [attrOf "name" "a"] Forest.nil 1
      (Forest.elem 1 (localName "tag") [attrOf "name" "b"] Forest.nil 1 Forest.nil))
      1 Forest.nil)
    1 Forest.nil

/-- A run in which `exiftool` is not installed: `cmd.Start()` fails. -/
def notInstalledEnv : Env :=
  { pipeErr := none,
    startErr := some "exec: \"exiftool\": executable file not found in $PATH",
    stdout := [], doneAt := none }

/-- A run in which the subprocess dies after the first table: the output
`<taginfo><table name="EXIF" g0="Image"><tag name="Width" type="int16u" writable="true">`
`</tag></table>` ends inside the element `taginfo`. -/
def truncatedEnv : Env :=
  { pipeErr := none, startErr := none,
    stdout :=
      [Raw.tok 1 (Token.StartElement (localName "taginfo") []),
       Raw.tok 1 (Token.StartElement (localName "table")
         [attrOf "name" "EXIF", attrOf "g0" "Image"]),
       Raw.tok 1 (Token.StartElement (localName "tag")
         [attrOf "name" "Width", attrOf "type" "int16u", attrOf "writable" "true"]),
       Raw.tok 1 (Token.EndElement (localName "tag")),
       Raw.tok 1 (Token.EndElement (localName "table"))],
    doneAt := none }

/-- A run with a malformed first table and a well-formed second one, the output
`<taginfo><table name="A" g0="G"><tag name="x"></oops></table>`
`<table name="B" g0="G"><tag name="y"></tag></table></taginfo>`. -/
def malformedEnv : Env :=
  { pipeErr := none, startErr := none,
    stdout :=
      [Raw.tok 1 (Token.StartElement (localName "taginfo") []),
       Raw.tok 1 (Token.StartElement (localName "table")
         [attrOf "name" "A", attrOf "g0" "G"]),
       Raw.tok 1 (Token.StartElement (localName "tag") [attrOf "name" "x"]),
       Raw.tok 1 (Token.EndElement (localName "oops")),
       Raw.tok 1 (Token.EndElement (localName "table")),
       Raw.tok 1 (Token.StartElement (localName "table")
         [attrOf "name" "B", attrOf "g0" "G"]),
       Raw.tok 1 (Token.StartElement (localName "tag") [attrOf "name" "y"]),
       Raw.tok 1 (Token.EndElement (localName "tag")),
       Raw.tok 1 (Token.EndElement (localName "table")),
       Raw.tok 1 (Token.EndElement (localName "taginfo"))],
    doneAt := none }

/-- A run whose request is cancelled during turn 2, after the record of the first table
is written, while the handler waits in `decoder.Token()`: the context kills the
subprocess, whose output ends inside `taginfo` (the output of `truncatedEnv`), and
`ctx.Done()` would be ready at the check of turn 3. -/
def lateCancelEnv : Env :=
  { truncatedEnv with doneAt := some 3 }

/-- A run of the scenario whose request is cancelled during turn 3, when the subprocess
has written its whole output: `decoder.Token()` returns the end of the input, and
`ctx.Done()` would be ready at the check of turn 4. -/
def cancelAtEndEnv : Env :=
  { exifEnv with doneAt := some 4 }

/-! ### The record of a tag -/

theorem foldlM_setDescription (wv pv gv ty : Value) (ds : List Desc) (m : GoMap String) :
    ds.foldlM setDescription
        [("writable", wv), ("path", pv), ("group", gv), ("description", Value.stringMap m),
          ("type", ty)] =
      some [("writable", wv), ("path", pv), ("group", gv),
        ("description", Value.stringMap (ds.foldl (fun m d => GoMap.set m d.Lang d.Text) m)),
        ("type", ty)] := by
  induction ds generalizing m with
  | nil => rfl
  | cons d ds ih =>
    have h1 : setDescription
        [("writable", wv), ("path", pv), ("group", gv), ("description", Value.stringMap m),
          ("type", ty)] d =
        some [("writable", wv), ("path", pv), ("group", gv),
          ("description", Value.stringMap (GoMap.set m d.Lang d.Text)), ("type", ty)] := by
      simp [setDescription, List.lookup, GoMap.set]
    simp only [List.foldlM_cons, h1, List.foldl_cons]
    exact ih _

theorem buildTag_eq (tbl : Table) (t : Tag) :
    buildTag tbl t = some
      [("writable", Value.bool (t.Writable == "true")),
       ("path", Value.string (tbl.Name ++ ":" ++ t.Name)),
       ("group", Value.string (tbl.G0 ++ "::" ++ tbl.Name)),
       ("description", Value.stringMap (descriptions t.Descs)),
       ("type", Value.string t.Typ)] := by
  unfold buildTag newTag descriptions
  exact foldlM_setDescription _ _ _ _ _ _

/-! ### The response writer -/

theorem write_of_wroteHeader (w : ResponseRecorder) (c : Chunk) (hw : w.wroteHeader = true) :
    w.Write c = { w with writes := w.writes ++ [c] } := by
  simp [ResponseRecorder.Write, ResponseRecorder.WriteHeader, hw]

theorem error_of_wroteHeader (w : ResponseRecorder) (e : String) (code : Nat)
    (hw : w.wroteHeader = true) :
    Error w e code = { w with writes := w.writes ++ [Chunk.errorText e] } := by
  simp [Error, ResponseRecorder.Write, ResponseRecorder.WriteHeader, hw]

theorem bodyOf_append (a b : List Chunk) : bodyOf (a ++ b) = bodyOf a ++ bodyOf b := by
  induction a with
  | nil => simp [bodyOf]
  | cons c cs ih => simp [bodyOf, ih, String.append_assoc]

/-! ### Records separated by commas -/

theorem separated_concat (recs : List (GoMap Value)) (r : GoMap Value) :
    separated (recs ++ [r]) =
      separated recs ++ (if recs = [] then [Chunk.record r] else [Chunk.comma, Chunk.record r]) := by
  cases recs with
  | nil => simp [separated]
  | cons a as => simp [separated, List.flatMap_append]

theorem records_append (a b : List Chunk) : records (a ++ b) = records a ++ records b := by
  induction a with
  | nil => rfl
  | cons c cs ih => cases c <;> simp [records, ih]

theorem records_flatMap (recs : List (GoMap Value)) :
    records (recs.flatMap (fun t => [Chunk.comma, Chunk.record t])) = recs := by
  induction recs with
  | nil => rfl
  | cons a as ih =>
    simp only [List.flatMap_cons, records_append, ih]
    simp [records]

theorem records_separated (recs : List (GoMap Value)) : records (separated recs) = recs := by
  cases recs with
  | nil => rfl
  | cons a as => simp [separated, records, records_flatMap]

theorem commas_flatMap (recs : List (GoMap Value)) :
    commas (recs.flatMap (fun t => [Chunk.comma, Chunk.record t])) = recs.length := by
  induction recs with
  | nil => rfl
  | cons a as ih =>
    simp only [commas] at ih ⊢
    simp [List.flatMap_cons, List.count_cons, ih]

theorem commas_separated (recs : List (GoMap Value)) :
    commas (separated recs) = recs.length - 1 := by
  cases recs with
  | nil => rfl
  | cons a as =>
    have := commas_flatMap as
    simp only [commas] at this ⊢
    simp [separated, List.count_cons, this]

/-! ### One tag, one table -/

theorem emitTag_eq (tbl : Table) (h : Handler) (t : Tag) (he : h.exit = none) :
    emitTag tbl h t =
      { h with w := (if h.first then h.w else h.w.Write Chunk.comma).Write
                      (Chunk.record (tagRecord tbl t)),
               first := false } := by
  unfold emitTag
  rw [he, buildTag_eq]
  cases h.first <;> simp [tagRecord]

theorem shape_emitTag (tbl : Table) (h : Handler) (t : Tag) (recs : List (GoMap Value))
    (hs : Shape h recs []) (he : h.exit = none) :
    Shape (emitTag tbl h t) (recs ++ [tagRecord tbl t]) [] ∧ (emitTag tbl h t).exit = none := by
  obtain ⟨hc, hw, hwr, hf, hr, _⟩ := hs
  rw [emitTag_eq tbl h t he]
  refine ⟨⟨?_, ?_, ?_, ?_, ?_, ?_⟩, he⟩
  · cases h.first <;> simp [write_of_wroteHeader, hw, hc]
  · cases h.first <;> simp [write_of_wroteHeader, hw]
  · simp only [List.append_nil] at hwr ⊢
    rw [separated_concat]
    by_cases hrecs : recs = []
    · have hft : h.first = true := hf.mpr hrecs
      simp [hft, hrecs, write_of_wroteHeader, hw, hwr]
    · have hft : h.first = false := by
        cases hfv : h.first with
        | false => rfl
        | true => exact absurd (hf.mp hfv) hrecs
      simp [hft, hrecs, write_of_wroteHeader, hw, hwr]
  · simp
  · intro r hr'
    rcases List.mem_append.mp hr' with h1 | h1
    · exact hr r h1
    · exact ⟨tbl, t, by simpa using h1⟩
  · simp [he, Tail]

theorem shape_foldl_emitTag (tbl : Table) (ts : List Tag) (h : Handler)
    (recs : List (GoMap Value)) (hs : Shape h recs []) (he : h.exit = none) :
    Shape (ts.foldl (emitTag tbl) h) (recs ++ ts.map (tagRecord tbl)) [] ∧
      (ts.foldl (emitTag tbl) h).exit = none := by
  induction ts generalizing h recs with
  | nil => simpa using ⟨hs, he⟩
  | cons t ts ih =>
    obtain ⟨h1, h2⟩ := shape_emitTag tbl h t recs hs he
    have := ih (emitTag tbl h t) (recs ++ [tagRecord tbl t]) h1 h2
    simpa using this

theorem shape_emitTable (h : Handler) (tbl : Table) (recs : List (GoMap Value))
    (hs : Shape h recs []) (he : h.exit = none) :
    Shape (emitTable h tbl) (recs ++ tbl.Tags.map (tagRecord tbl)) [] ∧
      (emitTable h tbl).exit = none :=
  shape_foldl_emitTag tbl tbl.Tags h recs hs he

/-! ### The shape of the response is kept by every turn -/

theorem shape_congr {h h' : Handler} {recs : List (GoMap Value)} {tail : List Chunk}
    (hw : h'.w = h.w) (hf : h'.first = h.first) (he : h'.exit = h.exit)
    (hs : Shape h recs tail) : Shape h' recs tail := by
  unfold Shape at hs ⊢
  rw [hw, hf, he]
  exact hs

theorem shape_start (env : Env) : ∃ tail, Shape (start env) [] tail := by
  unfold start
  cases hp : env.pipeErr with
  | some e =>
    refine ⟨[Chunk.errorText ("Failed to get stdout pipe: " ++ e)], ?_⟩
    simp [Shape, Error, ResponseRecorder.Write, ResponseRecorder.WriteHeader, NewRecorder,
      separated, Tail]
  | none =>
    cases hs : env.startErr with
    | some e =>
      refine ⟨[Chunk.errorText ("Failed to start exiftool: " ++ e)], ?_⟩
      simp [Shape, Error, ResponseRecorder.Write, ResponseRecorder.WriteHeader, NewRecorder,
        separated, Tail]
    | none =>
      refine ⟨[], ?_⟩
      simp [Shape, ResponseRecorder.Write, ResponseRecorder.WriteHeader, NewRecorder,
        separated, Tail]

theorem shape_iteration (env : Env) (h : Handler) (recs : List (GoMap Value))
    (tail : List Chunk) (hs : Shape h recs tail) :
    ∃ recs' tail', Shape (iteration env h) recs' tail' := by
  unfold iteration
  cases he : h.exit with
  | some x => exact ⟨recs, tail, by simpa [he] using hs⟩
  | none =>
    have htail : tail = [] := by
      have := hs.2.2.2.2.2
      rw [he] at this
      exact this
    subst htail
    obtain ⟨hc, hw, hwr, hf, hr, _⟩ := hs
    simp only
    split
    · exact ⟨recs, [], hc, hw, hwr, hf, hr, by simp [Tail]⟩
    · split
      · rename_i err d _
        split
        · refine ⟨recs, [Chunk.closing], ?_⟩
          simp [Shape, write_of_wroteHeader, hw, hc, hwr, hf, Tail]
          exact hr
        · refine ⟨recs, [Chunk.errorText ("Error parsing XML: " ++ err.Error)], ?_⟩
          simp [Shape, error_of_wroteHeader, hw, hc, hwr, hf, Tail]
          exact hr
      · rename_i name attr d _
        split
        · split
          · rename_i e d' _
            exact ⟨recs, [], hc, hw, hwr, hf, hr, by simp [Tail, he]⟩
          · rename_i tbl d' _
            have h0 : Shape { w := h.w, first := h.first, decoder := d', iter := h.iter + 1,
                              killed := h.killed, exit := none } recs [] :=
              ⟨hc, hw, hwr, hf, hr, by simp [Tail]⟩
            exact ⟨_, [], (shape_emitTable _ tbl recs h0 rfl).1⟩
        · exact ⟨recs, [], hc, hw, hwr, hf, hr, by simp [Tail, he]⟩
      · exact ⟨recs, [], hc, hw, hwr, hf, hr, by simp [Tail, he]⟩

theorem tagsHandlerAt_succ (env : Env) (n : Nat) :
    tagsHandlerAt env (n + 1) = iteration env (tagsHandlerAt env n) := by
  unfold tagsHandlerAt
  exact Function.iterate_succ_apply' _ _ _

theorem shape_at (env : Env) (n : Nat) :
    ∃ recs tail, Shape (tagsHandlerAt env n) recs tail := by
  induction n with
  | zero =>
    obtain ⟨tail, h⟩ := shape_start env
    exact ⟨[], tail, h⟩
  | succ n ih =>
    obtain ⟨recs, tail, h⟩ := ih
    rw [tagsHandlerAt_succ]
    exact shape_iteration env _ recs tail h

/-! ### Commas and records in the writes -/

theorem tail_cases {e : Option Exit} {tail : List Chunk} (h : Tail e tail) :
    tail = [] ∨ tail = [Chunk.closing] ∨ ∃ e, tail = [Chunk.errorText e] := by
  cases e with
  | none => exact Or.inl h
  | some x =>
    cases x with
    | cancelled => exact Or.inl h
    | finished => exact Or.inr (Or.inl h)
    | panicked => exact absurd h id
    | parseError => exact Or.inr (Or.inr h)
    | pipeFailed => exact Or.inr (Or.inr h)
    | startFailed => exact Or.inr (Or.inr h)


theorem plain_of_tail {e : Option Exit} {tail : List Chunk} (h : Tail e tail) : Plain tail := by
  rcases tail_cases h with h1 | h1 | ⟨e, h1⟩ <;> subst h1 <;> intro c hc <;>
    simp at hc <;> subst hc <;> simp [Chunk.isRecord]

theorem plain_initial {q tail : List Chunk} (hq : q <+: tail) (h : Plain tail) : Plain q :=
  fun c hc => h c (hq.subset hc)

theorem count_plain {q : List Chunk} (h : Plain q) : commas q = 0 ∧ records q = [] := by
  induction q with
  | nil => exact ⟨rfl, rfl⟩
  | cons c cs ih =>
    have hc := h c (List.mem_cons_self _ _)
    have ih' := ih (fun x hx => h x (List.mem_cons_of_mem _ hx))
    unfold commas at ih' ⊢
    cases c <;> simp_all [records, Chunk.isRecord]

theorem prefix_flatMap_count (recs : List (GoMap Value)) (tail q : List Chunk) (ht : Plain tail)
    (hq : q <+: recs.flatMap (fun t => [Chunk.comma, Chunk.record t]) ++ tail)
    (hl : q.getLast? ≠ some Chunk.comma) : commas q = (records q).length := by
  induction recs generalizing q with
  | nil =>
    have := count_plain (plain_initial (by simpa using hq) ht)
    simp [this.1, this.2]
  | cons r rs ih =>
    simp only [List.flatMap_cons, List.cons_append, List.nil_append] at hq
    rcases List.prefix_cons_iff.mp hq with h0 | ⟨t, h1, h2⟩
    · subst h0; rfl
    · subst h1
      rcases List.prefix_cons_iff.mp h2 with h0 | ⟨t', h1, h3⟩
      · subst h0; simp at hl
      · subst h1
        have hl' : t'.getLast? ≠ some Chunk.comma := by
          cases t' with
          | nil => simp
          | cons a as => simpa using hl
        have := ih t' h3 hl'
        unfold commas at this ⊢
        simp [records, List.count_cons, this]

theorem prefix_count (recs : List (GoMap Value)) (tail p : List Chunk) (ht : Plain tail)
    (hp : p <+: Chunk.opening :: (separated recs ++ tail))
    (hl : p.getLast? ≠ some Chunk.comma) : commas p = (records p).length - 1 := by
  rcases List.prefix_cons_iff.mp hp with h0 | ⟨t, h1, h2⟩
  · subst h0; rfl
  · subst h1
    cases recs with
    | nil =>
      have := count_plain (plain_initial (by simpa [separated] using h2) ht)
      unfold commas at this ⊢
      simp [records, List.count_cons, this.1, this.2]
    | cons r rs =>
      simp only [separated, List.cons_append] at h2
      rcases List.prefix_cons_iff.mp h2 with h0 | ⟨t', h1, h3⟩
      · subst h0; rfl
      · subst h1
        have hl' : t'.getLast? ≠ some Chunk.comma := by
          cases t' with
          | nil => simp
          | cons a as => simpa using hl
        have := prefix_flatMap_count rs tail t' ht h3 hl'
        unfold commas at this ⊢
        simp [records, List.count_cons, this]

theorem chain_flatMap (recs : List (GoMap Value)) (tail : List Chunk) (r : GoMap Value)
    (ht : tail = [] ∨ tail = [Chunk.closing] ∨ ∃ e, tail = [Chunk.errorText e]) :
    List.Chain Adjacent (Chunk.record r)
      (recs.flatMap (fun t => [Chunk.comma, Chunk.record t]) ++ tail) := by
  induction recs generalizing r with
  | nil =>
    rcases ht with h | h | ⟨e, h⟩ <;> subst h <;> simp [Adjacent, Chunk.isRecord]
  | cons a as ih =>
    simp only [List.flatMap_cons, List.cons_append, List.nil_append, List.chain_cons]
    exact ⟨by simp [Adjacent, Chunk.isRecord], by simp [Adjacent, Chunk.isRecord], ih a⟩

theorem chain_writes (recs : List (GoMap Value)) (tail : List Chunk)
    (ht : tail = [] ∨ tail = [Chunk.closing] ∨ ∃ e, tail = [Chunk.errorText e]) :
    List.Chain' Adjacent (Chunk.opening :: (separated recs ++ tail)) := by
  cases recs with
  | nil =>
    rcases ht with h | h | ⟨e, h⟩ <;> subst h <;> simp [separated, Adjacent, Chunk.isRecord]
  | cons r rs =>
    simp only [separated, List.cons_append, List.Chain', List.chain_cons]
    exact ⟨by simp [Adjacent, Chunk.isRecord], chain_flatMap rs tail r ht⟩

theorem records_writes (recs : List (GoMap Value)) (tail : List Chunk) (ht : Plain tail) :
    records (Chunk.opening :: (separated recs ++ tail)) = recs := by
  simp [records, records_append, records_separated, (count_plain ht).2]

theorem commas_writes (recs : List (GoMap Value)) (tail : List Chunk) (ht : Plain tail) :
    commas (Chunk.opening :: (separated recs ++ tail)) = recs.length - 1 := by
  have h1 := commas_separated recs
  have h2 := (count_plain ht).1
  unfold commas at h1 h2 ⊢
  simp [List.count_cons, List.count_append, h1, h2]

theorem emitTable_nil (h : Handler) (tbl : Table) (ht : tbl.Tags = []) : emitTable h tbl = h := by
  simp [emitTable, ht]

theorem getLast_mem {q : List Chunk} {c : Chunk} (h : q.getLast? = some c) : c ∈ q :=
  List.mem_of_getLast?_eq_some h

theorem no_comma_last {q : List Chunk} (h : Plain q) : q.getLast? ≠ some Chunk.comma := by
  intro hl
  exact (h _ (getLast_mem hl)).1 rfl

theorem prefix_flatMap_comma (recs : List (GoMap Value)) (tail q : List Chunk) (ht : Plain tail)
    (hq : q <+: recs.flatMap (fun t => [Chunk.comma, Chunk.record t]) ++ tail)
    (hl : q.getLast? = some Chunk.comma) : commas q = (records q).length + 1 := by
  induction recs generalizing q with
  | nil =>
    exact absurd hl (no_comma_last (plain_initial (by simpa using hq) ht))
  | cons r rs ih =>
    simp only [List.flatMap_cons, List.cons_append, List.nil_append] at hq
    rcases List.prefix_cons_iff.mp hq with h0 | ⟨t, h1, h2⟩
    · subst h0; simp at hl
    · subst h1
      rcases List.prefix_cons_iff.mp h2 with h0 | ⟨t', h1, h3⟩
      · subst h0; rfl
      · subst h1
        have hl' : t'.getLast? = some Chunk.comma := by
          cases t' with
          | nil => simp at hl
          | cons a as => simpa using hl
        have := ih t' h3 hl'
        unfold commas at this ⊢
        simp [records, List.count_cons, this]

theorem prefix_comma (recs : List (GoMap Value)) (tail p : List Chunk) (ht : Plain tail)
    (hp : p <+: Chunk.opening :: (separated recs ++ tail))
    (hl : p.getLast? = some Chunk.comma) : commas p = (records p).length := by
  rcases List.prefix_cons_iff.mp hp with h0 | ⟨t, h1, h2⟩
  · subst h0; simp at hl
  · subst h1
    cases recs with
    | nil =>
      have hpl : Plain t := plain_initial (by simpa [separated] using h2) ht
      cases t with
      | nil => simp at hl
      | cons a as =>
        have hl' : (a :: as).getLast? = some Chunk.comma := by simpa using hl
        exact absurd hl' (no_comma_last hpl)
    | cons r rs =>
      simp only [separated, List.cons_append] at h2
      rcases List.prefix_cons_iff.mp h2 with h0 | ⟨t', h1, h3⟩
      · subst h0; simp at hl
      · subst h1
        have hl' : t'.getLast? = some Chunk.comma := by
          cases t' with
          | nil => simp at hl
          | cons a as => simpa using hl
        have := prefix_flatMap_comma rs tail t' ht h3 hl'
        unfold commas at this ⊢
        simp [records, List.count_cons, this]

/-! ### What one turn of the token loop does -/

theorem write_writes (w : ResponseRecorder) (c : Chunk) : (w.Write c).writes = w.writes ++ [c] := by
  unfold ResponseRecorder.Write ResponseRecorder.WriteHeader
  split <;> rfl

theorem error_writes (w : ResponseRecorder) (e : String) (code : Nat) :
    (Error w e code).writes = w.writes ++ [Chunk.errorText e] := by
  unfold Error
  rw [write_writes]
  unfold ResponseRecorder.WriteHeader
  split <;> rfl

theorem emitTag_fields (tbl : Table) (h : Handler) (t : Tag) (he : h.exit = none) :
    (emitTag tbl h t).exit = none ∧ (emitTag tbl h t).iter = h.iter ∧
    (emitTag tbl h t).killed = h.killed ∧ (emitTag tbl h t).decoder = h.decoder ∧
    ∃ ws, (emitTag tbl h t).w.writes = h.w.writes ++ ws := by
  rw [emitTag_eq tbl h t he]
  refine ⟨he, rfl, rfl, rfl, ?_⟩
  cases h.first
  · exact ⟨[Chunk.comma, Chunk.record (tagRecord tbl t)], by simp [write_writes]⟩
  · exact ⟨[Chunk.record (tagRecord tbl t)], by simp [write_writes]⟩

theorem foldl_emitTag_fields (tbl : Table) (ts : List Tag) (h : Handler) (he : h.exit = none) :
    (ts.foldl (emitTag tbl) h).exit = none ∧ (ts.foldl (emitTag tbl) h).iter = h.iter ∧
    (ts.foldl (emitTag tbl) h).killed = h.killed ∧
    (ts.foldl (emitTag tbl) h).decoder = h.decoder ∧
    ∃ ws, (ts.foldl (emitTag tbl) h).w.writes = h.w.writes ++ ws := by
  induction ts generalizing h with
  | nil => exact ⟨he, rfl, rfl, rfl, [], by simp⟩
  | cons t ts ih =>
    obtain ⟨h1, h2, h3, h4, ws, h5⟩ := emitTag_fields tbl h t he
    obtain ⟨g1, g2, g3, g4, ws', g5⟩ := ih (emitTag tbl h t) h1
    refine ⟨g1, by rw [List.foldl_cons, g2, h2], by rw [List.foldl_cons, g3, h3],
      by rw [List.foldl_cons, g4, h4], ws ++ ws', ?_⟩
    rw [List.foldl_cons, g5, h5, List.append_assoc]

theorem emitTable_fields (h : Handler) (tbl : Table) (he : h.exit = none) :
    (emitTable h tbl).exit = none ∧ (emitTable h tbl).iter = h.iter ∧
    (emitTable h tbl).killed = h.killed ∧ (emitTable h tbl).decoder = h.decoder ∧
    ∃ ws, (emitTable h tbl).w.writes = h.w.writes ++ ws :=
  foldl_emitTag_fields tbl tbl.Tags h he

/-- The four ways a turn of the token loop can go for a handler that has not returned. -/
theorem iteration_cases (env : Env) (h : Handler) (he : h.exit = none) :
    (ctxDone env h.iter = true ∧
      iteration env h = { h with killed := true, exit := some Exit.cancelled }) ∨
    (ctxDone env h.iter = false ∧ ∃ err d, h.decoder.Token = (Except.error err, d) ∧
      err.Error = "EOF" ∧
      iteration env h = { h with iter := h.iter + 1, decoder := d,
                                 w := h.w.Write Chunk.closing, exit := some Exit.finished }) ∨
    (ctxDone env h.iter = false ∧ ∃ err d, h.decoder.Token = (Except.error err, d) ∧
      err.Error ≠ "EOF" ∧
      iteration env h = { h with iter := h.iter + 1, decoder := d,
                                 w := Error h.w ("Error parsing XML: " ++ err.Error) 500,
                                 exit := some Exit.parseError }) ∨
    (ctxDone env h.iter = false ∧ (iteration env h).exit = none ∧
      (iteration env h).iter = h.iter + 1 ∧ (iteration env h).killed = h.killed ∧
      ∃ ws, (iteration env h).w.writes = h.w.writes ++ ws) := by
  obtain ⟨w, first, decoder, iter, killed, exit⟩ := h
  simp only at he
  subst he
  unfold iteration
  simp only
  cases hd : ctxDone env iter with
  | true => left; simp
  | false =>
    right
    simp only [Bool.false_eq_true, if_false]
    split
    · rename_i err d hT
      by_cases hE : err.Error = "EOF"
      · left; exact ⟨trivial, err, d, hT, hE, by simp [hE]⟩
      · right; left; exact ⟨trivial, err, d, hT, hE, by simp [hE]⟩
    · rename_i name attr d hT
      right; right
      split
      · split
        · exact ⟨trivial, rfl, rfl, rfl, [], by simp⟩
        · rename_i tbl d' _
          obtain ⟨h1, h2, h3, _, ws, h5⟩ := emitTable_fields
            { w := w, first := first, decoder := d', iter := iter + 1, killed := killed,
              exit := none } tbl rfl
          exact ⟨trivial, h1, h2, h3, ws, h5⟩
      · exact ⟨trivial, rfl, rfl, rfl, [], by simp⟩
    · right; right
      exact ⟨trivial, rfl, rfl, rfl, [], by simp⟩

theorem iteration_of_exit (env : Env) (h : Handler) (x : Exit) (he : h.exit = some x) :
    iteration env h = h := by
  unfold iteration
  rw [he]

theorem start_exit (env : Env) :
    (start env).exit = none ∨ (start env).exit = some Exit.pipeFailed ∨
      (start env).exit = some Exit.startFailed := by
  unfold start
  cases env.pipeErr with
  | some e => simp
  | none =>
    cases env.startErr with
    | some e => simp
    | none => simp

/-- A run that has returned from the token loop was still running one turn before it
reached its last state. -/
theorem last_turn (env : Env) (m : Nat) (x : Exit) (hx : (tagsHandlerAt env m).exit = some x)
    (h1 : x ≠ Exit.pipeFailed) (h2 : x ≠ Exit.startFailed) :
    ∃ n, n < m ∧ (tagsHandlerAt env n).exit = none ∧
      tagsHandlerAt env m = iteration env (tagsHandlerAt env n) := by
  induction m with
  | zero =>
    rcases start_exit env with h | h | h <;>
      simp [tagsHandlerAt] at hx <;> rw [hx] at h <;> simp_all
  | succ m ih =>
    cases hm : (tagsHandlerAt env m).exit with
    | none => exact ⟨m, Nat.lt_succ_self m, hm, tagsHandlerAt_succ env m⟩
    | some y =>
      have heq : tagsHandlerAt env (m + 1) = tagsHandlerAt env m := by
        rw [tagsHandlerAt_succ, iteration_of_exit env _ y hm]
      rw [heq] at hx ⊢
      obtain ⟨n, hn, h3, h4⟩ := ih hx
      exact ⟨n, Nat.lt_succ_of_lt hn, h3, h4⟩

/-! ### Runs: writes only grow, and a cancellation is the only use of `doneAt` -/

theorem iteration_writes (env : Env) (h : Handler) :
    ∃ ws, (iteration env h).w.writes = h.w.writes ++ ws := by
  cases he : h.exit with
  | some x => exact ⟨[], by rw [iteration_of_exit env h x he]; simp⟩
  | none =>
    rcases iteration_cases env h he with ⟨_, h1⟩ | ⟨_, err, d, _, _, h1⟩ | ⟨_, err, d, _, _, h1⟩ |
        ⟨_, _, _, _, ws, h1⟩
    · exact ⟨[], by rw [h1]; simp⟩
    · exact ⟨[Chunk.closing], by rw [h1]; simp [write_writes]⟩
    · exact ⟨[Chunk.errorText ("Error parsing XML: " ++ err.Error)], by
        rw [h1]; simp [error_writes]⟩
    · exact ⟨ws, h1⟩

theorem writes_mono (env : Env) (n k : Nat) :
    ∃ ws, (tagsHandlerAt env (n + k)).w.writes = (tagsHandlerAt env n).w.writes ++ ws := by
  induction k with
  | zero => exact ⟨[], by simp⟩
  | succ k ih =>
    obtain ⟨ws, h1⟩ := ih
    obtain ⟨ws', h2⟩ := iteration_writes env (tagsHandlerAt env (n + k))
    refine ⟨ws ++ ws', ?_⟩
    rw [← Nat.add_assoc, tagsHandlerAt_succ, h2, h1, List.append_assoc]

theorem stays_returned (env : Env) (n k : Nat) (x : Exit)
    (hx : (tagsHandlerAt env n).exit = some x) :
    tagsHandlerAt env (n + k) = tagsHandlerAt env n := by
  induction k with
  | zero => rfl
  | succ k ih =>
    rw [← Nat.add_assoc, tagsHandlerAt_succ, ih, iteration_of_exit env _ x hx]

theorem running_before (env : Env) (n : Nat) (h : (tagsHandlerAt env (n + 1)).exit = none) :
    (tagsHandlerAt env n).exit = none := by
  cases hn : (tagsHandlerAt env n).exit with
  | none => rfl
  | some x =>
    rw [tagsHandlerAt_succ, iteration_of_exit env _ x hn, hn] at h
    exact absurd h (by simp)

theorem start_iter (env : Env) : (start env).iter = 0 := by
  unfold start
  cases env.pipeErr with
  | some e => rfl
  | none =>
    cases env.startErr with
    | some e => rfl
    | none => rfl

theorem iter_of_running (env : Env) (n : Nat) (h : (tagsHandlerAt env n).exit = none) :
    (tagsHandlerAt env n).iter = n := by
  induction n with
  | zero => exact start_iter env
  | succ n ih =>
    have hn := running_before env n h
    have ihn := ih hn
    rcases iteration_cases env _ hn with ⟨_, h1⟩ | ⟨_, err, d, _, _, h1⟩ |
        ⟨_, err, d, _, _, h1⟩ | ⟨_, _, h1, _, _⟩
    · rw [tagsHandlerAt_succ, h1] at h; simp at h
    · rw [tagsHandlerAt_succ, h1] at h; simp at h
    · rw [tagsHandlerAt_succ, h1] at h; simp at h
    · rw [tagsHandlerAt_succ, h1, ihn]

theorem iteration_congr (env env' : Env) (h : Handler)
    (hd : ctxDone env h.iter = ctxDone env' h.iter) : iteration env h = iteration env' h := by
  unfold iteration
  rw [hd]

theorem start_congr (env : Env) : start { env with doneAt := none } = start env := rfl

theorem ctxDone_never (env : Env) (i : Nat) : ctxDone { env with doneAt := none } i = false := rfl

/-- While the run has not returned it is the run of the request that is never cancelled. -/
theorem uncancelled_agree (env : Env) (n : Nat) (h : (tagsHandlerAt env n).exit = none) :
    tagsHandlerAt { env with doneAt := none } n = tagsHandlerAt env n := by
  induction n with
  | zero => exact start_congr env
  | succ n ih =>
    have hn := running_before env n h
    rw [tagsHandlerAt_succ, tagsHandlerAt_succ, ih hn]
    apply iteration_congr
    rw [ctxDone_never]
    rcases iteration_cases env _ hn with ⟨_, h1⟩ | ⟨h0, _⟩ | ⟨h0, _⟩ | ⟨h0, _⟩
    · rw [tagsHandlerAt_succ, h1] at h; simp at h
    · exact h0.symm
    · exact h0.symm
    · exact h0.symm

/-! ### The last byte of the array -/

theorem separated_last (recs : List (GoMap Value)) (hr : recs ≠ []) :
    ∃ l r, separated recs = l ++ [Chunk.record r] := by
  induction recs using List.reverseRecOn with
  | nil => exact absurd rfl hr
  | append_singleton as a _ =>
    rw [separated_concat]
    by_cases h : as = []
    · exact ⟨separated as, a, by simp [h]⟩
    · exact ⟨separated as ++ [Chunk.comma], a, by simp [h]⟩

theorem body_last (recs : List (GoMap Value)) :
    (bodyOf (Chunk.opening :: separated recs)).data.getLast? = some '[' ∨
      (bodyOf (Chunk.opening :: separated recs)).data.getLast? = some '\n' := by
  by_cases hr : recs = []
  · left
    subst hr
    decide
  · right
    obtain ⟨l, r, h⟩ := separated_last recs hr
    rw [h, ← List.cons_append, bodyOf_append]
    have e : (bodyOf (Chunk.opening :: l) ++ bodyOf [Chunk.record r]).data =
        ((bodyOf (Chunk.opening :: l)).data ++ marshal r) ++ ['\n'] := by
      simp [bodyOf, Chunk.bytes, Encode]
    rw [e, List.getLast?_concat]

/-! ### The decoder on a well-formed document -/

theorem token_start (l l0 : Nat) (n : Name) (a : List Attr) (rest : List Raw) (s : List Name) :
    Decoder.Token { input := Raw.tok l (Token.StartElement n a) :: rest, stk := s, err := none,
                    line := l0 } =
      (Except.ok (Token.StartElement n a),
        { input := rest, stk := n :: s, err := none, line := l }) := rfl

theorem token_end (l l0 : Nat) (n : Name) (rest : List Raw) (s : List Name) :
    Decoder.Token { input := Raw.tok l (Token.EndElement n) :: rest, stk := n :: s, err := none,
                    line := l0 } =
      (Except.ok (Token.EndElement n), { input := rest, stk := s, err := none, line := l }) := by
  simp [Decoder.Token, Decoder.rawToken]

theorem token_text (l l0 : Nat) (x : String) (rest : List Raw) (s : List Name) :
    Decoder.Token { input := Raw.tok l (Token.CharData x) :: rest, stk := s, err := none,
                    line := l0 } =
      (Except.ok (Token.CharData x), { input := rest, stk := s, err := none, line := l }) := rfl

theorem token_comment (l l0 : Nat) (x : String) (rest : List Raw) (s : List Name) :
    Decoder.Token { input := Raw.tok l (Token.Comment x) :: rest, stk := s, err := none,
                    line := l0 } =
      (Except.ok (Token.Comment x), { input := rest, stk := s, err := none, line := l }) := rfl

theorem token_procInst (l l0 : Nat) (x y : String) (rest : List Raw) (s : List Name) :
    Decoder.Token { input := Raw.tok l (Token.ProcInst x y) :: rest, stk := s, err := none,
                    line := l0 } =
      (Except.ok (Token.ProcInst x y), { input := rest, stk := s, err := none, line := l }) := rfl

theorem token_directive (l l0 : Nat) (x : String) (rest : List Raw) (s : List Name) :
    Decoder.Token { input := Raw.tok l (Token.Directive x) :: rest, stk := s, err := none,
                    line := l0 } =
      (Except.ok (Token.Directive x), { input := rest, stk := s, err := none, line := l }) := rfl

theorem token_eof (l0 : Nat) :
    Decoder.Token { input := [], stk := [], err := none, line := l0 } =
      (Except.error Err.EOF, { input := [], stk := [], err := some Err.EOF, line := l0 }) := by
  simp [Decoder.Token, Decoder.rawToken]

theorem skipLoop_flat (f : Forest) (fuel depth : Nat) (rest : List Raw) (s : List Name)
    (l : Nat) :
    Decoder.skipLoop (fuel + f.flat.length)
        { input := f.flat ++ rest, stk := s, err := none, line := l } depth =
      Decoder.skipLoop fuel { input := rest, stk := s, err := none, line := f.lastLine l }
        depth := by
  induction f generalizing fuel depth rest s l with
  | nil => simp [Forest.flat, Forest.lastLine]
  | elem l1 n a ch l2 nx ihc ihn =>
    have e : fuel + (Forest.elem l1 n a ch l2 nx).flat.length =
        (fuel + nx.flat.length + 1 + ch.flat.length) + 1 := by
      simp [Forest.flat]; omega
    rw [e]
    simp only [Forest.flat, List.cons_append, List.append_assoc, Decoder.skipLoop, token_start]
    rw [ihc]
    simp only [Decoder.skipLoop, token_end, Nat.add_one_ne_zero, if_false, Nat.add_sub_cancel]
    rw [ihn]
    rfl
  | text l1 x nx ih =>
    have e : fuel + (Forest.text l1 x nx).flat.length = (fuel + nx.flat.length) + 1 := by
      simp [Forest.flat]; omega
    rw [e]
    simp only [Forest.flat, List.cons_append, Decoder.skipLoop, token_text]
    rw [ih]
    rfl
  | comment l1 x nx ih =>
    have e : fuel + (Forest.comment l1 x nx).flat.length = (fuel + nx.flat.length) + 1 := by
      simp [Forest.flat]; omega
    rw [e]
    simp only [Forest.flat, List.cons_append, Decoder.skipLoop, token_comment]
    rw [ih]
    rfl
  | procInst l1 x y nx ih =>
    have e : fuel + (Forest.procInst l1 x y nx).flat.length = (fuel + nx.flat.length) + 1 := by
      simp [Forest.flat]; omega
    rw [e]
    simp only [Forest.flat, List.cons_append, Decoder.skipLoop, token_procInst]
    rw [ih]
    rfl
  | directive l1 x nx ih =>
    have e : fuel + (Forest.directive l1 x nx).flat.length = (fuel + nx.flat.length) + 1 := by
      simp [Forest.flat]; omega
    rw [e]
    simp only [Forest.flat, List.cons_append, Decoder.skipLoop, token_directive]
    rw [ih]
    rfl

/-- Skipping an element: its children and its end tag are read. -/
theorem skip_children (ch : Forest) (l l' : Nat) (n : Name) (rest : List Raw) (s : List Name) :
    Decoder.Skip { input := ch.flat ++ Raw.tok l' (Token.EndElement n) :: rest, stk := n :: s,
                   err := none, line := l } =
      (none, { input := rest, stk := s, err := none, line := l' }) := by
  unfold Decoder.Skip
  have e : ({ input := ch.flat ++ Raw.tok l' (Token.EndElement n) :: rest, stk := n :: s,
              err := none, line := l } : Decoder).input.length + 1 =
      (rest.length + 1 + 1) + ch.flat.length := by
    simp; omega
  rw [e, skipLoop_flat]
  simp [Decoder.skipLoop, token_end]

theorem count_le_length (f : Forest) : f.count ≤ f.flat.length := by
  induction f with
  | nil => simp [Forest.count]
  | elem l1 n a ch l2 nx ihc ihn => simp [Forest.count, Forest.flat]; omega
  | text l1 x nx ih => simp [Forest.count, Forest.flat]; omega
  | comment l1 x nx ih => simp [Forest.count, Forest.flat]; omega
  | procInst l1 x y nx ih => simp [Forest.count, Forest.flat]; omega
  | directive l1 x nx ih => simp [Forest.count, Forest.flat]; omega

theorem descLoop_flat (f : Forest) (fuel : Nat) (data : String) (rest : List Raw)
    (s : List Name) (l : Nat) :
    Decoder.descLoop (fuel + f.count)
        { input := f.flat ++ rest, stk := s, err := none, line := l } data =
      Decoder.descLoop fuel { input := rest, stk := s, err := none, line := f.lastLine l }
        (data ++ f.chardata) := by
  induction f generalizing fuel data rest s l with
  | nil => simp [Forest.flat, Forest.lastLine, Forest.count, Forest.chardata]
  | elem l1 n a ch l2 nx _ ihn =>
    have e : fuel + (Forest.elem l1 n a ch l2 nx).count = (fuel + nx.count) + 1 := rfl
    rw [e]
    simp only [Forest.flat, List.cons_append, List.append_assoc, Decoder.descLoop, token_start,
      skip_children]
    rw [ihn]
    rfl
  | text l1 x nx ih =>
    have e : fuel + (Forest.text l1 x nx).count = (fuel + nx.count) + 1 := rfl
    rw [e]
    simp only [Forest.flat, List.cons_append, Decoder.descLoop, token_text]
    rw [ih]
    simp [Forest.lastLine, Forest.chardata, String.append_assoc]
  | comment l1 x nx ih =>
    have e : fuel + (Forest.comment l1 x nx).count = (fuel + nx.count) + 1 := rfl
    rw [e]
    simp only [Forest.flat, List.cons_append, Decoder.descLoop, token_comment]
    rw [ih]
    rfl
  | procInst l1 x y nx ih =>
    have e : fuel + (Forest.procInst l1 x y nx).count = (fuel + nx.count) + 1 := rfl
    rw [e]
    simp only [Forest.flat, List.cons_append, Decoder.descLoop, token_procInst]
    rw [ih]
    rfl
  | directive l1 x nx ih =>
    have e : fuel + (Forest.directive l1 x nx).count = (fuel + nx.count) + 1 := rfl
    rw [e]
    simp only [Forest.flat, List.cons_append, Decoder.descLoop, token_directive]
    rw [ih]
    rfl

/-- Decoding a `desc` element: its attribute `lang` and its character data. -/
theorem unmarshalDesc_children (ch : Forest) (l l' : Nat) (n : Name) (attr : List Attr)
    (rest : List Raw) (s : List Name) :
    Decoder.unmarshalDesc
        { input := ch.flat ++ Raw.tok l' (Token.EndElement n) :: rest, stk := n :: s,
          err := none, line := l } attr =
      (Except.ok { Lang := attrValue "lang" attr, Text := ch.chardata },
        { input := rest, stk := s, err := none, line := l' }) := by
  unfold Decoder.unmarshalDesc
  have hle := count_le_length ch
  have e : ({ input := ch.flat ++ Raw.tok l' (Token.EndElement n) :: rest, stk := n :: s,
              err := none, line := l } : Decoder).input.length + 1 =
      (ch.flat.length - ch.count + rest.length + 1 + 1) + ch.count := by
    simp; omega
  rw [e, descLoop_flat]
  simp [Decoder.descLoop, token_end]

theorem tagLoop_flat (f : Forest) (fuel : Nat) (acc : List Desc) (rest : List Raw)
    (s : List Name) (l : Nat) :
    Decoder.tagLoop (fuel + f.count)
        { input := f.flat ++ rest, stk := s, err := none, line := l } acc =
      Decoder.tagLoop fuel { input := rest, stk := s, err := none, line := f.lastLine l }
        (acc ++ f.descs) := by
  induction f generalizing fuel acc rest s l with
  | nil => simp [Forest.flat, Forest.lastLine, Forest.count, Forest.descs]
  | elem l1 n a ch l2 nx _ ihn =>
    have e : fuel + (Forest.elem l1 n a ch l2 nx).count = (fuel + nx.count) + 1 := rfl
    rw [e]
    simp only [Forest.flat, List.cons_append, List.append_assoc, Decoder.tagLoop, token_start,
      skip_children, unmarshalDesc_children]
    by_cases hn : n.Local = "desc"
    · simp only [hn, if_true]
      rw [ihn]
      simp [Forest.lastLine, Forest.descs, hn]
    · simp only [hn, if_false]
      rw [ihn]
      simp [Forest.lastLine, Forest.descs, hn]
  | text l1 x nx ih =>
    have e : fuel + (Forest.text l1 x nx).count = (fuel + nx.count) + 1 := rfl
    rw [e]
    simp only [Forest.flat, List.cons_append, Decoder.tagLoop, token_text]
    rw [ih]
    rfl
  | comment l1 x nx ih =>
    have e : fuel + (Forest.comment l1 x nx).count = (fuel + nx.count) + 1 := rfl
    rw [e]
    simp only [Forest.flat, List.cons_append, Decoder.tagLoop, token_comment]
    rw [ih]
    rfl
  | procInst l1 x y nx ih =>
    have e : fuel + (Forest.procInst l1 x y nx).count = (fuel + nx.count) + 1 := rfl
    rw [e]
    simp only [Forest.flat, List.cons_append, Decoder.tagLoop, token_procInst]
    rw [ih]
    rfl
  | directive l1 x nx ih =>
    have e : fuel + (Forest.directive l1 x nx).count = (fuel + nx.count) + 1 := rfl
    rw [e]
    simp only [Forest.flat, List.cons_append, Decoder.tagLoop, token_directive]
    rw [ih]
    rfl

/-- Decoding a `tag` element: its attributes and its `desc` children. -/
theorem unmarshalTag_children (ch : Forest) (l l' : Nat) (n : Name) (attr : List Attr)
    (rest : List Raw) (s : List Name) :
    Decoder.unmarshalTag
        { input := ch.flat ++ Raw.tok l' (Token.EndElement n) :: rest, stk := n :: s,
          err := none, line := l } attr =
      (Except.ok { Name := attrValue "name" attr, Typ := attrValue "type" attr,
                   Writable := attrValue "writable" attr, Descs := ch.descs },
        { input := rest, stk := s, err := none, line := l' }) := by
  unfold Decoder.unmarshalTag
  have hle := count_le_length ch
  have e : ({ input := ch.flat ++ Raw.tok l' (Token.EndElement n) :: rest, stk := n :: s,
              err := none, line := l } : Decoder).input.length + 1 =
      (ch.flat.length - ch.count + rest.length + 1 + 1) + ch.count := by
    simp; omega
  rw [e, tagLoop_flat]
  simp [Decoder.tagLoop, token_end]

theorem tableLoop_flat (f : Forest) (fuel : Nat) (acc : List Tag) (rest : List Raw)
    (s : List Name) (l : Nat) :
    Decoder.tableLoop (fuel + f.count)
        { input := f.flat ++ rest, stk := s, err := none, line := l } acc =
      Decoder.tableLoop fuel { input := rest, stk := s, err := none, line := f.lastLine l }
        (acc ++ f.tags) := by
  induction f generalizing fuel acc rest s l with
  | nil => simp [Forest.flat, Forest.lastLine, Forest.count, Forest.tags]
  | elem l1 n a ch l2 nx _ ihn =>
    have e : fuel + (Forest.elem l1 n a ch l2 nx).count = (fuel + nx.count) + 1 := rfl
    rw [e]
    simp only [Forest.flat, List.cons_append, List.append_assoc, Decoder.tableLoop, token_start,
      skip_children, unmarshalTag_children]
    by_cases hn : n.Local = "tag"
    · simp only [hn, if_true]
      rw [ihn]
      simp [Forest.lastLine, Forest.tags, hn]
    · simp only [hn, if_false]
      rw [ihn]
      simp [Forest.lastLine, Forest.tags, hn]
  | text l1 x nx ih =>
    have e : fuel + (Forest.text l1 x nx).count = (fuel + nx.count) + 1 := rfl
    rw [e]
    simp only [Forest.flat, List.cons_append, Decoder.tableLoop, token_text]
    rw [ih]
    rfl
  | comment l1 x nx ih =>
    have e : fuel + (Forest.comment l1 x nx).count = (fuel + nx.count) + 1 := rfl
    rw [e]
    simp only [Forest.flat, List.cons_append, Decoder.tableLoop, token_comment]
    rw [ih]
    rfl
  | procInst l1 x y nx ih =>
    have e : fuel + (Forest.procInst l1 x y nx).count = (fuel + nx.count) + 1 := rfl
    rw [e]
    simp only [Forest.flat, List.cons_append, Decoder.tableLoop, token_procInst]
    rw [ih]
    rfl
  | directive l1 x nx ih =>
    have e : fuel + (Forest.directive l1 x nx).count = (fuel + nx.count) + 1 := rfl
    rw [e]
    simp only [Forest.flat, List.cons_append, Decoder.tableLoop, token_directive]
    rw [ih]
    rfl

/-- Decoding a `table` element: its attributes and its `tag` children. -/
theorem decodeElement_children (ch : Forest) (l l' : Nat) (n : Name) (attr : List Attr)
    (rest : List Raw) (s : List Name) :
    Decoder.DecodeElement
        { input := ch.flat ++ Raw.tok l' (Token.EndElement n) :: rest, stk := n :: s,
          err := none, line := l } attr =
      (Except.ok { Name := attrValue "name" attr, G0 := attrValue "g0" attr, Tags := ch.tags },
        { input := rest, stk := s, err := none, line := l' }) := by
  unfold Decoder.DecodeElement
  have hle := count_le_length ch
  have e : ({ input := ch.flat ++ Raw.tok l' (Token.EndElement n) :: rest, stk := n :: s,
              err := none, line := l } : Decoder).input.length + 1 =
      (ch.flat.length - ch.count + rest.length + 1 + 1) + ch.count := by
    simp; omega
  rw [e, tableLoop_flat]
  simp [Decoder.tableLoop, token_end]

/-! ### The token loop on a well-formed document -/

theorem foldl_emitTag_eq (tbl : Table) (ts : List Tag) (h : Handler) (he : h.exit = none) :
    ts.foldl (emitTag tbl) h =
      { h with w := (writeRecords (h.w, h.first) (ts.map (tagRecord tbl))).1,
               first := (writeRecords (h.w, h.first) (ts.map (tagRecord tbl))).2 } := by
  induction ts generalizing h with
  | nil => simp [writeRecords]
  | cons t ts ih =>
    rw [List.foldl_cons, ih _ (emitTag_fields tbl h t he).1, emitTag_eq tbl h t he]
    simp [writeRecords]

theorem emitTable_eq (h : Handler) (tbl : Table) (he : h.exit = none) :
    emitTable h tbl =
      { h with w := (writeRecords (h.w, h.first) (tbl.Tags.map (tagRecord tbl))).1,
               first := (writeRecords (h.w, h.first) (tbl.Tags.map (tagRecord tbl))).2 } :=
  foldl_emitTag_eq tbl tbl.Tags h he

theorem writeRecords_append (out : ResponseRecorder × Bool) (a b : List (GoMap Value)) :
    writeRecords out (a ++ b) = writeRecords (writeRecords out a) b := by
  simp [writeRecords, List.foldl_append]

theorem writeRecords_nil (out : ResponseRecorder × Bool) : writeRecords out [] = out := rfl

theorem iteration_table (env : Env) (hd : env.doneAt = none) (w : ResponseRecorder)
    (first : Bool) (iter : Nat) (killed : Bool) (l l1 l2 : Nat) (n : Name) (a : List Attr)
    (ch : Forest) (rest : List Raw) (s : List Name) (hn : n.Local = "table") :
    iteration env
        { w := w, first := first,
          decoder := { input := Raw.tok l1 (Token.StartElement n a) ::
                          (ch.flat ++ Raw.tok l2 (Token.EndElement n) :: rest),
                       stk := s, err := none, line := l },
          iter := iter, killed := killed, exit := none } =
      { w := (writeRecords (w, first)
                (recordsOf [{ Name := attrValue "name" a, G0 := attrValue "g0" a,
                              Tags := ch.tags }])).1,
        first := (writeRecords (w, first)
                (recordsOf [{ Name := attrValue "name" a, G0 := attrValue "g0" a,
                              Tags := ch.tags }])).2,
        decoder := { input := rest, stk := s, err := none, line := l2 },
        iter := iter + 1, killed := killed, exit := none } := by
  simp only [iteration, ctxDone, hd, Bool.false_eq_true, if_false, token_start, hn, if_true,
    decodeElement_children]
  rw [emitTable_eq _ _ rfl]
  simp [recordsOf]

theorem iteration_other (env : Env) (hd : env.doneAt = none) (w : ResponseRecorder)
    (first : Bool) (iter : Nat) (killed : Bool) (d d' : Decoder) (t : Token)
    (hT : d.Token = (Except.ok t, d'))
    (ht : ∀ n a, t = Token.StartElement n a → n.Local ≠ "table") :
    iteration env
        { w := w, first := first, decoder := d, iter := iter, killed := killed, exit := none } =
      { w := w, first := first, decoder := d', iter := iter + 1, killed := killed,
        exit := none } := by
  simp only [iteration, ctxDone, hd, Bool.false_eq_true, if_false, hT]
  cases t with
  | StartElement n a => simp [ht n a rfl]
  | EndElement n => rfl
  | CharData x => rfl
  | Comment x => rfl
  | ProcInst x y => rfl
  | Directive x => rfl

theorem turns_flat (env : Env) (hd : env.doneAt = none) (f : Forest) (w : ResponseRecorder)
    (first : Bool) (iter : Nat) (killed : Bool) (rest : List Raw) (s : List Name) (l : Nat) :
    (iteration env)^[f.turns]
        { w := w, first := first,
          decoder := { input := f.flat ++ rest, stk := s, err := none, line := l },
          iter := iter, killed := killed, exit := none } =
      { w := (writeRecords (w, first) (recordsOf f.tables)).1,
        first := (writeRecords (w, first) (recordsOf f.tables)).2,
        decoder := { input := rest, stk := s, err := none, line := f.lastLine l },
        iter := iter + f.turns, killed := killed, exit := none } := by
  induction f generalizing w first iter rest s l with
  | nil => simp [Forest.turns, Forest.flat, Forest.tables, Forest.lastLine, recordsOf, writeRecords]
  | elem l1 n a ch l2 nx ihc ihn =>
    by_cases hn : n.Local = "table"
    · have e : (Forest.elem l1 n a ch l2 nx).turns = nx.turns + 1 := by simp [Forest.turns, hn]
      rw [e, Function.iterate_succ_apply]
      simp only [Forest.flat, List.cons_append, List.append_assoc]
      rw [iteration_table env hd _ _ _ _ _ _ _ _ _ _ _ _ hn, ihn]
      simp only [Forest.tables, hn, if_true, Forest.lastLine]
      have e2 : recordsOf (Table.mk (attrValue "name" a) (attrValue "g0" a) ch.tags ::
            nx.tables) =
          recordsOf [Table.mk (attrValue "name" a) (attrValue "g0" a) ch.tags] ++
            recordsOf nx.tables := by
        simp [recordsOf]
      rw [e2, writeRecords_append]
      simp [Nat.add_assoc, Nat.add_comm]
    · have e : (Forest.elem l1 n a ch l2 nx).turns = ((nx.turns + 1) + ch.turns) + 1 := by
        simp [Forest.turns, hn]; omega
      rw [e, Function.iterate_succ_apply, Function.iterate_add_apply]
      simp only [Forest.flat, List.cons_append, List.append_assoc]
      rw [iteration_other env hd _ _ _ _ _ _ _ (token_start _ _ _ _ _ _)
        (by intro n' a' h'; cases h'; exact hn)]
      rw [ihc]
      rw [Function.iterate_succ_apply,
        iteration_other env hd _ _ _ _ _ _ _ (token_end _ _ _ _ _) (by intro n' a' h'; cases h')]
      rw [ihn]
      simp only [Forest.tables, hn, if_false, Forest.lastLine]
      have e2 : recordsOf (ch.tables ++ nx.tables) = recordsOf ch.tables ++ recordsOf nx.tables := by
        simp [recordsOf]
      rw [e2, writeRecords_append]
      simp only [Handler.mk.injEq, true_and, and_true]
      omega
  | text l1 x nx ih =>
    have e : (Forest.text l1 x nx).turns = nx.turns + 1 := rfl
    rw [e, Function.iterate_succ_apply]
    simp only [Forest.flat, List.cons_append]
    rw [iteration_other env hd _ _ _ _ _ _ _ (token_text _ _ _ _ _) (by intro n' a' h'; cases h'),
      ih]
    simp only [Forest.tables, Forest.lastLine, Handler.mk.injEq, true_and, and_true]
    omega
  | comment l1 x nx ih =>
    have e : (Forest.comment l1 x nx).turns = nx.turns + 1 := rfl
    rw [e, Function.iterate_succ_apply]
    simp only [Forest.flat, List.cons_append]
    rw [iteration_other env hd _ _ _ _ _ _ _ (token_comment _ _ _ _ _)
      (by intro n' a' h'; cases h'), ih]
    simp only [Forest.tables, Forest.lastLine, Handler.mk.injEq, true_and, and_true]
    omega
  | procInst l1 x y nx ih =>
    have e : (Forest.procInst l1 x y nx).turns = nx.turns + 1 := rfl
    rw [e, Function.iterate_succ_apply]
    simp only [Forest.flat, List.cons_append]
    rw [iteration_other env hd _ _ _ _ _ _ _ (token_procInst _ _ _ _ _ _)
      (by intro n' a' h'; cases h'), ih]
    simp only [Forest.tables, Forest.lastLine, Handler.mk.injEq, true_and, and_true]
    omega
  | directive l1 x nx ih =>
    have e : (Forest.directive l1 x nx).turns = nx.turns + 1 := rfl
    rw [e, Function.iterate_succ_apply]
    simp only [Forest.flat, List.cons_append]
    rw [iteration_other env hd _ _ _ _ _ _ _ (token_directive _ _ _ _ _)
      (by intro n' a' h'; cases h'), ih]
    simp only [Forest.tables, Forest.lastLine, Handler.mk.injEq, true_and, and_true]
    omega

theorem writeRecords_writes (recs : List (GoMap Value)) (w : ResponseRecorder) (first : Bool) :
    (writeRecords (w, first) recs).1.writes =
      w.writes ++ (if first then separated recs
        else recs.flatMap (fun t => [Chunk.comma, Chunk.record t])) := by
  induction recs generalizing w first with
  | nil => cases first <;> simp [writeRecords, separated]
  | cons r rs ih =>
    have e : writeRecords (w, first) (r :: rs) =
        writeRecords ((if first then w else w.Write Chunk.comma).Write (Chunk.record r), false)
          rs := by
      simp [writeRecords]
    rw [e, ih]
    cases first <;> simp [write_writes, separated]

theorem turns_le_length (f : Forest) : f.turns ≤ f.flat.length := by
  induction f with
  | nil => simp [Forest.turns]
  | elem l1 n a ch l2 nx ihc ihn =>
    by_cases hn : n.Local = "table" <;> simp [Forest.turns, Forest.flat, hn] <;> omega
  | text l1 x nx ih => simp [Forest.turns, Forest.flat]; omega
  | comment l1 x nx ih => simp [Forest.turns, Forest.flat]; omega
  | procInst l1 x y nx ih => simp [Forest.turns, Forest.flat]; omega
  | directive l1 x nx ih => simp [Forest.turns, Forest.flat]; omega

theorem tags_length (f : Forest) : f.tags.length = f.countTags := by
  induction f with
  | nil => rfl
  | elem l1 n a ch l2 nx ihc ihn =>
    by_cases hn : n.Local = "tag" <;> simp [Forest.tags, Forest.countTags, hn, ihn]
  | text l1 x nx ih => simpa [Forest.tags, Forest.countTags] using ih
  | comment l1 x nx ih => simpa [Forest.tags, Forest.countTags] using ih
  | procInst l1 x y nx ih => simpa [Forest.tags, Forest.countTags] using ih
  | directive l1 x nx ih => simpa [Forest.tags, Forest.countTags] using ih

theorem recordsOf_append (a b : List Table) : recordsOf (a ++ b) = recordsOf a ++ recordsOf b := by
  simp [recordsOf]

theorem recordsOf_length (f : Forest) : (recordsOf f.tables).length = f.countTableTags := by
  induction f with
  | nil => rfl
  | elem l1 n a ch l2 nx ihc ihn =>
    by_cases hn : n.Local = "table"
    · simp only [Forest.tables, Forest.countTableTags, hn, if_true]
      rw [← ihn, ← tags_length]
      simp [recordsOf]
    · simp only [Forest.tables, Forest.countTableTags, hn, if_false]
      rw [recordsOf_append, List.length_append, ihc, ihn]
  | text l1 x nx ih => simpa [Forest.tables, Forest.countTableTags] using ih
  | comment l1 x nx ih => simpa [Forest.tables, Forest.countTableTags] using ih
  | procInst l1 x y nx ih => simpa [Forest.tables, Forest.countTableTags] using ih
  | directive l1 x nx ih => simpa [Forest.tables, Forest.countTableTags] using ih

theorem buildTag_tagRecord (tbl : Table) (t : Tag) : buildTag tbl t = some (tagRecord tbl t) :=
  buildTag_eq tbl t

theorem recordsOf_some (tables : List Table) :
    (recordsOf tables).map some = tables.flatMap (fun tbl => tbl.Tags.map (buildTag tbl)) := by
  induction tables with
  | nil => rfl
  | cons tbl rest ih =>
    have e : recordsOf (tbl :: rest) = tbl.Tags.map (tagRecord tbl) ++ recordsOf rest := by
      simp [recordsOf]
    rw [e, List.map_append, ih]
    simp [buildTag_tagRecord]

/-- The run on a well-formed document, turn by turn to its end. -/
theorem run_document (f : Forest) :
    tagsHandler (docEnv f) =
      { w := ((writeRecords (NewRecorder.Write Chunk.opening, true) (recordsOf f.tables)).1).Write
               Chunk.closing,
        first := (writeRecords (NewRecorder.Write Chunk.opening, true) (recordsOf f.tables)).2,
        decoder := { input := [], stk := [], err := some Err.EOF, line := f.lastLine 1 },
        iter := f.turns + 1, killed := false, exit := some Exit.finished } := by
  have hstart : start (docEnv f) =
      { w := NewRecorder.Write Chunk.opening, first := true,
        decoder := { input := f.flat ++ [], stk := [], err := none, line := 1 },
        iter := 0, killed := false, exit := none } := by
    simp [start, docEnv, NewDecoder]
  have h1 : tagsHandlerAt (docEnv f) f.turns =
      { w := (writeRecords (NewRecorder.Write Chunk.opening, true) (recordsOf f.tables)).1,
        first := (writeRecords (NewRecorder.Write Chunk.opening, true) (recordsOf f.tables)).2,
        decoder := { input := [], stk := [], err := none, line := f.lastLine 1 },
        iter := 0 + f.turns, killed := false, exit := none } := by
    unfold tagsHandlerAt
    rw [hstart]
    exact turns_flat (docEnv f) rfl f _ _ _ _ _ _ _
  have h2 : tagsHandlerAt (docEnv f) (f.turns + 1) =
      { w := ((writeRecords (NewRecorder.Write Chunk.opening, true) (recordsOf f.tables)).1).Write
               Chunk.closing,
        first := (writeRecords (NewRecorder.Write Chunk.opening, true) (recordsOf f.tables)).2,
        decoder := { input := [], stk := [], err := some Err.EOF, line := f.lastLine 1 },
        iter := f.turns + 1, killed := false, exit := some Exit.finished } := by
    rw [tagsHandlerAt_succ, h1]
    simp [iteration, ctxDone, docEnv, token_eof, Err.Error]
  have hle := turns_le_length f
  have e : (docEnv f).stdout.length + 1 = (f.turns + 1) + (f.flat.length - f.turns) := by
    simp [docEnv]; omega
  unfold tagsHandler
  rw [e, stays_returned (docEnv f) (f.turns + 1) _ Exit.finished (by rw [h2]), h2]

theorem run_document_writes (f : Forest) :
    (tagsHandler (docEnv f)).w.writes =
      Chunk.opening :: (separated (recordsOf f.tables) ++ [Chunk.closing]) := by
  rw [run_document, write_writes, writeRecords_writes]
  simp [write_writes, NewRecorder]

/-! ### The description map -/

theorem lookup_cons_eq (m : GoMap String) (a b k' : String) :
    List.lookup k' ((a, b) :: m) = if k' = a then some b else List.lookup k' m := by
  by_cases h : k' = a
  · subst h; simp [List.lookup]
  · have hne : (k' == a) = false := by simpa using h
    simp [List.lookup, hne, h]

theorem lookup_set (m : GoMap String) (k v k' : String) :
    List.lookup k' (GoMap.set m k v) = if k' = k then some v else List.lookup k' m := by
  induction m with
  | nil =>
    rw [GoMap.set, lookup_cons_eq]
  | cons e rest ih =>
    obtain ⟨a, b⟩ := e
    by_cases hak : a = k
    · subst hak
      simp only [GoMap.set, if_true, lookup_cons_eq]
      split <;> rfl
    · simp only [GoMap.set, hak, if_false, lookup_cons_eq, ih]
      by_cases h : k' = a
      · have hk : ¬ k' = k := fun h' => hak (h ▸ h')
        simp [h, hak]
      · simp [h]

theorem descriptions_concat (ds : List Desc) (d : Desc) :
    descriptions (ds ++ [d]) = GoMap.set (descriptions ds) d.Lang d.Text := by
  simp [descriptions, List.foldl_append]

theorem descriptions_lookup (ds : List Desc) (lang : String) :
    List.lookup lang (descriptions ds) =
      (ds.reverse.find? (fun d => d.Lang == lang)).map Desc.Text := by
  induction ds using List.reverseRecOn with
  | nil => rfl
  | append_singleton ds d ih =>
    rw [descriptions_concat, lookup_set, List.reverse_append]
    by_cases h : lang = d.Lang
    · subst h; simp
    · have hne : (d.Lang == lang) = false := by simpa using fun h' => h h'.symm
      simp [h, hne, ih]

theorem keys_set (m : GoMap String) (k v : String) :
    (GoMap.set m k v).map Prod.fst =
      if k ∈ m.map Prod.fst then m.map Prod.fst else m.map Prod.fst ++ [k] := by
  induction m with
  | nil => simp [GoMap.set]
  | cons e rest ih =>
    obtain ⟨a, b⟩ := e
    by_cases hak : a = k
    · subst hak; simp [GoMap.set]
    · have hka : ¬ k = a := fun h => hak h.symm
      simp only [GoMap.set, hak, if_false, List.map_cons, ih, List.mem_cons, hka, false_or]
      split <;> simp

theorem descriptions_nodup (ds : List Desc) : ((descriptions ds).map Prod.fst).Nodup := by
  induction ds using List.reverseRecOn with
  | nil => simp [descriptions]
  | append_singleton ds d ih =>
    rw [descriptions_concat, keys_set]
    split
    · exact ih
    · rename_i h
      exact List.Nodup.append ih (List.nodup_singleton _) (by simpa using h)

theorem attrValue_missing (name : String) (attr : List Attr)
    (h : ∀ a ∈ attr, a.Name.Local ≠ name) : attrValue name attr = "" := by
  unfold attrValue
  suffices ∀ v, attr.foldl (fun v a => if a.Name.Local = name then a.Value else v) v = v from
    this ""
  induction attr with
  | nil => intro v; rfl
  | cons a rest ih =>
    intro v
    simp only [List.foldl_cons, h a (List.mem_cons_self _ _), if_false]
    exact ih (fun b hb => h b (List.mem_cons_of_mem _ hb)) v

theorem attrValue_last (name : String) (attr : List Attr) (a : Attr)
    (h : a.Name.Local = name) : attrValue name (attr ++ [a]) = a.Value := by
  simp [attrValue, List.foldl_append, h]

/-! ### Reading back a string the encoder wrote -/

theorem readString_quote (rest : List Char) : readString ('"' :: rest) = some ([], rest) := by
  unfold readString
  simp

theorem readString_plain (c : Char) (rest : List Char) (h1 : c ≠ '"') (h2 : c ≠ '\\')
    (h3 : ¬ c.toNat < 32) : readString (c :: rest) = push c (readString rest) := by
  conv_lhs => unfold readString
  simp [h1, h2, h3]

theorem readString_escaped (e x : Char) (rest : List Char)
    (h : (e = '"' ∧ x = '"') ∨ (e = '\\' ∧ x = '\\') ∨ (e = 'b' ∧ x = Char.ofNat 8) ∨
      (e = 'f' ∧ x = Char.ofNat 12) ∨ (e = 'n' ∧ x = '\n') ∨ (e = 'r' ∧ x = '\r') ∨
      (e = 't' ∧ x = '\t')) :
    readString ('\\' :: e :: rest) = push x (readString rest) := by
  conv_lhs => unfold readString
  rcases h with ⟨h, hx⟩ | ⟨h, hx⟩ | ⟨h, hx⟩ | ⟨h, hx⟩ | ⟨h, hx⟩ | ⟨h, hx⟩ | ⟨h, hx⟩ <;>
    subst h <;> subst hx <;> simp

theorem readString_unicode (a b c d : Char) (rest : List Char) (n : Nat)
    (h : hex4 a b c d = some n) (hn : n < 0xd800) :
    readString ('\\' :: 'u' :: a :: b :: c :: d :: rest) =
      push (Char.ofNat n) (readString rest) := by
  conv_lhs => unfold readString
  simp [h, hn]

theorem hexValue_hexDigit (n : Nat) (h : n < 16) : hexValue (hexDigit n) = some n := by
  interval_cases n <;> decide

theorem char_eq_of_toNat {c d : Char} (h : c.toNat = d.toNat) : c = d := by
  apply Char.ext
  apply UInt32.ext
  exact h

theorem hex4_low (c : Char) (h : c.toNat < 256) :
    hex4 '0' '0' (hexDigit (c.toNat / 16)) (hexDigit (c.toNat % 16)) = some c.toNat := by
  have h1 : hexValue '0' = some 0 := by decide
  have h2 := hexValue_hexDigit (c.toNat / 16) (by omega)
  have h3 := hexValue_hexDigit (c.toNat % 16) (by omega)
  simp only [hex4, h1, h2, h3]
  congr 1
  omega

theorem hex4_line (c : Char) (h : c.toNat = 0x2028 ∨ c.toNat = 0x2029) :
    hex4 '2' '0' '2' (hexDigit (c.toNat % 16)) = some c.toNat := by
  rcases h with h | h <;> rw [h] <;> decide

/-- The reader undoes the escaping of one character. -/
theorem readString_escapeChar (c : Char) (rest : List Char) :
    readString (escapeChar c ++ rest) = push c (readString rest) := by
  unfold escapeChar
  by_cases h1 : c = '"'
  · subst h1
    exact readString_escaped _ _ _ (Or.inl ⟨rfl, rfl⟩)
  by_cases h2 : c = '\\'
  · subst h2
    exact readString_escaped _ _ _ (Or.inr (Or.inl ⟨rfl, rfl⟩))
  simp only [h1, h2, if_false]
  by_cases h3 : c.toNat < 32
  · simp only [h3, if_true]
    by_cases h8 : c.toNat = 8
    · simp only [h8, if_true]
      have : c = Char.ofNat 8 := char_eq_of_toNat (by rw [h8]; rfl)
      exact readString_escaped _ _ _ (Or.inr (Or.inr (Or.inl ⟨rfl, this⟩)))
    by_cases h12 : c.toNat = 12
    · simp only [h8, h12, if_true, if_false]
      have : c = Char.ofNat 12 := char_eq_of_toNat (by rw [h12]; rfl)
      exact readString_escaped _ _ _ (Or.inr (Or.inr (Or.inr (Or.inl ⟨rfl, this⟩))))
    simp only [h8, h12, if_false]
    by_cases hn : c = '\n'
    · simp only [hn, if_true]
      exact readString_escaped _ _ _ (Or.inr (Or.inr (Or.inr (Or.inr (Or.inl ⟨rfl, rfl⟩)))))
    by_cases hr : c = '\r'
    · simp only [hn, hr, if_true, if_false]
      subst hr
      exact readString_escaped _ _ _
        (Or.inr (Or.inr (Or.inr (Or.inr (Or.inr (Or.inl ⟨rfl, rfl⟩))))))
    by_cases ht : c = '\t'
    · simp only [hn, hr, ht, if_true, if_false]
      subst ht
      exact readString_escaped _ _ _
        (Or.inr (Or.inr (Or.inr (Or.inr (Or.inr (Or.inr ⟨rfl, rfl⟩))))))
    simp only [hn, hr, ht, if_false]
    have := readString_unicode _ _ _ _ rest _ (hex4_low c (by omega)) (by omega)
    rw [Char.ofNat_toNat] at this
    exact this
  simp only [h3, if_false]
  by_cases h4 : c = '<' ∨ c = '>' ∨ c = '&'
  · simp only [h4, if_true]
    have hlt : c.toNat < 256 := by
      rcases h4 with h | h | h <;> subst h <;> decide
    have := readString_unicode _ _ _ _ rest _ (hex4_low c hlt) (by omega)
    rw [Char.ofNat_toNat] at this
    exact this
  simp only [h4, if_false]
  by_cases h5 : c.toNat = 0x2028 ∨ c.toNat = 0x2029
  · simp only [h5, if_true]
    have := readString_unicode _ _ _ _ rest _ (hex4_line c h5) (by omega)
    rw [Char.ofNat_toNat] at this
    exact this
  simp only [h5, if_false]
  exact readString_plain c rest h1 h2 h3

/-- The reader undoes the escaping of a string. -/
theorem readString_escape (s : List Char) (rest : List Char) :
    readString (escape s ++ '"' :: rest) = some (s, rest) := by
  induction s with
  | nil => exact readString_quote rest
  | cons c cs ih =>
    simp only [escape, List.append_assoc]
    rw [readString_escapeChar, ih]
    rfl

/-! ### Reading back the values the encoder wrote -/

theorem skipSpace_cons (c : Char) (cs : List Char) (h : isSpace c = false) :
    skipSpace (c :: cs) = c :: cs := by
  simp [skipSpace, h]

theorem skipSpace_newline (cs : List Char) : skipSpace ('\n' :: cs) = skipSpace cs := by
  simp [skipSpace, isSpace]

theorem quote_eq (s : String) : quote s = '"' :: (escape s.data ++ ['"']) := rfl

theorem reads_quote (s : String) : Reads (quote s) (Json.str s) := by
  intro fuel rest hf
  cases fuel with
  | zero => simp [quote] at hf
  | succ n =>
    rw [quote_eq]
    simp only [List.cons_append, List.append_assoc, List.singleton_append]
    rw [readValue, skipSpace_cons _ _ (by decide)]
    simp [readString_escape]

theorem reads_true : Reads ['t', 'r', 'u', 'e'] (Json.bool true) := by
  intro fuel rest hf
  cases fuel with
  | zero => simp at hf
  | succ n =>
    simp only [List.cons_append, List.nil_append]
    rw [readValue, skipSpace_cons _ _ (by decide)]
    simp [stripLit]

theorem reads_false : Reads ['f', 'a', 'l', 's', 'e'] (Json.bool false) := by
  intro fuel rest hf
  cases fuel with
  | zero => simp at hf
  | succ n =>
    simp only [List.cons_append, List.nil_append]
    rw [readValue, skipSpace_cons _ _ (by decide)]
    simp [stripLit]

theorem reads_null : Reads ['n', 'u', 'l', 'l'] Json.null := by
  intro fuel rest hf
  cases fuel with
  | zero => simp at hf
  | succ n =>
    simp only [List.cons_append, List.nil_append]
    rw [readValue, skipSpace_cons _ _ (by decide)]
    simp [stripLit]

theorem members_cons_cons {α : Type} (val : α → List Char) (e e' : String × α)
    (tl : GoMap α) :
    members val (e :: e' :: tl) =
      quote e.1 ++ ':' :: val e.2 ++ ',' :: members val (e' :: tl) := rfl

theorem members_single {α : Type} (val : α → List Char) (e : String × α) :
    members val [e] = quote e.1 ++ ':' :: val e.2 := rfl

/-- One member of an object is read: its key, the colon and its value. -/
theorem readMembers_step {α : Type} (val : α → List Char) (j : α → Json) (e : String × α)
    (hr : Reads (val e.2) (j e.2)) (n : Nat) (rest : List Char)
    (hf : (val e.2).length ≤ n) :
    readMembers (n + 1) (quote e.1 ++ ':' :: (val e.2 ++ rest)) =
      match skipSpace rest with
      | [] => none
      | c' :: rest4 =>
        if c' = ',' then
          match readMembers n rest4 with
          | some (ms, rest5) => some ((e.1, j e.2) :: ms, rest5)
          | none => none
        else if c' = '\x7d' then some ([(e.1, j e.2)], rest4)
        else none := by
  rw [quote_eq]
  simp only [List.cons_append, List.append_assoc, List.singleton_append, List.nil_append]
  rw [readMembers, skipSpace_cons _ _ (by decide)]
  simp only [if_true, readString_escape]
  rw [skipSpace_cons _ _ (by decide)]
  simp only [if_true, hr n rest hf]
  try rfl

theorem readMembers_members {α : Type} (val : α → List Char) (j : α → Json) (m : GoMap α)
    (hm : m ≠ []) (hr : ∀ e ∈ m, Reads (val e.2) (j e.2)) (fuel : Nat) (rest : List Char)
    (hf : (members val m).length + 1 ≤ fuel) :
    readMembers fuel (members val m ++ '\x7d' :: rest) =
      some (m.map (fun e => (e.1, j e.2)), rest) := by
  induction m generalizing fuel with
  | nil => exact absurd rfl hm
  | cons e tl ih =>
    cases fuel with
    | zero => omega
    | succ n =>
      cases tl with
      | nil =>
        rw [members_single] at hf ⊢
        simp only [List.length_append, List.length_cons] at hf
        simp only [List.append_assoc, List.cons_append]
        rw [readMembers_step val j e (hr e (List.mem_cons_self _ _)) n _ (by omega)]
        rw [skipSpace_cons _ _ (by decide)]
        simp
      | cons e' tl' =>
        rw [members_cons_cons] at hf ⊢
        simp only [List.length_append, List.length_cons] at hf
        simp only [List.append_assoc, List.cons_append]
        rw [readMembers_step val j e (hr e (List.mem_cons_self _ _)) n _ (by omega)]
        rw [skipSpace_cons _ _ (by decide)]
        simp only [if_true]
        rw [ih (by simp) (fun x hx => hr x (List.mem_cons_of_mem _ hx)) n (by omega)]
        simp

theorem members_head {α : Type} (val : α → List Char) (m : GoMap α) (hm : m ≠ []) :
    ∃ cs, members val m = '"' :: cs := by
  cases m with
  | nil => exact absurd rfl hm
  | cons e tl =>
    cases tl with
    | nil => exact ⟨_, by rw [members_single, quote_eq]; rfl⟩
    | cons e' tl' => exact ⟨_, by rw [members_cons_cons, quote_eq]; rfl⟩

/-- An object whose members are read is read. -/
theorem reads_members {α : Type} (val : α → List Char) (j : α → Json) (m : GoMap α)
    (hr : ∀ e ∈ m, Reads (val e.2) (j e.2)) :
    Reads ('\x7b' :: (members val m ++ ['\x7d'])) (Json.obj (m.map (fun e => (e.1, j e.2)))) := by
  intro fuel rest hf
  cases fuel with
  | zero => simp at hf
  | succ n =>
    simp only [List.length_cons, List.length_append, List.length_nil] at hf
    simp only [List.cons_append, List.append_assoc, List.singleton_append]
    rw [readValue, skipSpace_cons _ _ (by decide)]
    by_cases hm : m = []
    · subst hm
      simp only [members, List.nil_append]
      rw [skipSpace_cons _ _ (by decide)]
      simp
    · obtain ⟨cs, hcs⟩ := members_head val m hm
      have h2 := readMembers_members val j m hm hr n rest (by omega)
      rw [hcs] at h2 ⊢
      simp only [List.cons_append] at h2 ⊢
      rw [skipSpace_cons _ _ (by decide)]
      simp [h2]

theorem reads_value (v : Value) : Reads v.marshal v.toJson := by
  cases v with
  | bool b => cases b <;> simp only [Value.marshal, Value.toJson] <;> [exact reads_false; exact reads_true]
  | string s => exact reads_quote s
  | stringMap m =>
    simp only [Value.marshal, Value.toJson, object]
    exact reads_members quote Json.str (sortKeys m) (fun e _ => reads_quote e.2)
  | nilMap => exact reads_null

/-- The text of a record is read as its JSON object. -/
theorem reads_marshal (tag : GoMap Value) : Reads (marshal tag) (toJson tag) := by
  simp only [marshal, toJson, object]
  exact reads_members Value.marshal Value.toJson (sortKeys tag) (fun e _ => reads_value e.2)

/-! ### Reading back the array and the body -/

theorem laterItems_cons (r : GoMap Value) (rs : List (GoMap Value)) :
    laterItems (r :: rs) = ',' :: arrayText (r :: rs) := by
  simp [laterItems, arrayText]

theorem readItems_array (r : GoMap Value) (rs : List (GoMap Value)) (fuel : Nat)
    (rest : List Char) (hf : (arrayText (r :: rs)).length + 1 ≤ fuel) :
    readItems fuel (arrayText (r :: rs) ++ ']' :: rest) = some ((r :: rs).map toJson, rest) := by
  induction rs generalizing r fuel with
  | nil =>
    cases fuel with
    | zero => omega
    | succ n =>
      simp only [arrayText, laterItems, List.flatMap_nil, List.length_append, List.length_cons,
        List.length_nil] at hf
      simp only [arrayText, laterItems, List.flatMap_nil, List.append_assoc, List.cons_append,
        List.nil_append]
      rw [readItems, reads_marshal r n _ (by omega)]
      simp only []
      rw [skipSpace_newline, skipSpace_cons _ _ (by decide)]
      simp
  | cons r2 rs' ih =>
    cases fuel with
    | zero => omega
    | succ n =>
      have e : arrayText (r :: r2 :: rs') = marshal r ++ '\n' :: ',' :: arrayText (r2 :: rs') := by
        rw [arrayText, laterItems_cons]
      rw [e] at hf ⊢
      simp only [List.length_append, List.length_cons] at hf
      simp only [List.append_assoc, List.cons_append]
      rw [readItems, reads_marshal r n _ (by omega)]
      simp only []
      rw [skipSpace_newline, skipSpace_cons _ _ (by decide)]
      simp only [if_true]
      rw [ih r2 n (by omega)]
      simp

/-- The array of the records, each followed by its line feed, is read as the array of
their JSON objects. -/
theorem reads_array (recs : List (GoMap Value)) :
    Reads ('[' :: (arrayText recs ++ [']'])) (Json.arr (recs.map toJson)) := by
  intro fuel rest hf
  cases fuel with
  | zero => simp at hf
  | succ n =>
    simp only [List.length_cons, List.length_append, List.length_nil] at hf
    simp only [List.cons_append, List.append_assoc, List.singleton_append]
    rw [readValue, skipSpace_cons _ _ (by decide)]
    cases recs with
    | nil =>
      simp only [arrayText, List.nil_append]
      rw [skipSpace_cons _ _ (by decide)]
      simp
    | cons r rs =>
      have h2 := readItems_array r rs n rest (by omega)
      obtain ⟨cs, hcs⟩ : ∃ cs, arrayText (r :: rs) = '\x7b' :: cs := ⟨_, rfl⟩
      rw [hcs] at h2 ⊢
      simp only [List.cons_append] at h2 ⊢
      rw [skipSpace_cons _ _ (by decide)]
      simp [h2]

theorem flatMap_later (r : GoMap Value) (rs : List (GoMap Value)) :
    (r :: rs).flatMap (fun t => [Chunk.comma, Chunk.record t]) =
      Chunk.comma :: Chunk.record r :: rs.flatMap (fun t => [Chunk.comma, Chunk.record t]) := by
  rw [List.flatMap_cons]
  rfl

theorem laterItems_unfold (r : GoMap Value) (rs : List (GoMap Value)) :
    laterItems (r :: rs) = ',' :: (marshal r ++ '\n' :: laterItems rs) := by
  unfold laterItems
  rw [List.flatMap_cons]
  simp

theorem bodyOf_later (rs : List (GoMap Value)) :
    (bodyOf (rs.flatMap (fun t => [Chunk.comma, Chunk.record t]))).data = laterItems rs := by
  induction rs with
  | nil => rfl
  | cons r rs ih =>
    rw [flatMap_later, laterItems_unfold]
    simp only [bodyOf, Chunk.bytes, String.data_append, ih, Encode]
    simp

theorem bodyOf_separated (recs : List (GoMap Value)) :
    (bodyOf (separated recs)).data = arrayText recs := by
  cases recs with
  | nil => rfl
  | cons r rs =>
    simp only [separated, bodyOf, Chunk.bytes, String.data_append, bodyOf_later, Encode,
      arrayText]
    simp

theorem body_data (recs : List (GoMap Value)) :
    (bodyOf (Chunk.opening :: (separated recs ++ [Chunk.closing]))).data =
      '\x7b' :: (members (fun rs => '[' :: (arrayText rs ++ [']'])) [("tags", recs)] ++
        ['\x7d']) := by
  have hq : quote "tags" = ['"', 't', 'a', 'g', 's', '"'] := by decide
  simp only [bodyOf, bodyOf_append, String.data_append, bodyOf_separated, Chunk.bytes,
    members, hq]
  simp

/-- The body of a finished response is read as the object with the one key `tags` and
the array of the records. -/
theorem parse_body (recs : List (GoMap Value)) :
    parseJson (bodyOf (Chunk.opening :: (separated recs ++ [Chunk.closing]))) =
      some (Json.obj [("tags", Json.arr (recs.map toJson))]) := by
  have hr := reads_members (fun rs => '[' :: (arrayText rs ++ [']']))
    (fun rs => Json.arr (rs.map toJson)) [("tags", recs)]
    (fun e _ => reads_array e.2)
  rw [← body_data] at hr
  have h := hr ((bodyOf (Chunk.opening :: (separated recs ++ [Chunk.closing]))).length + 1) []
    (Nat.le_succ _)
  rw [List.append_nil] at h
  unfold parseJson
  rw [h]
  simp [skipSpace]

theorem intercalate_go (acc : String) (rs : List (GoMap Value)) :
    String.intercalate.go acc "," (rs.map Encode) =
      acc ++ bodyOf (rs.flatMap (fun t => [Chunk.comma, Chunk.record t])) := by
  induction rs generalizing acc with
  | nil => simp [String.intercalate.go, bodyOf]
  | cons r rs ih =>
    rw [flatMap_later]
    simp only [List.map_cons, String.intercalate.go, ih, bodyOf, Chunk.bytes,
      String.append_assoc]

theorem bodyOf_intercalate (recs : List (GoMap Value)) :
    bodyOf (separated recs) = String.intercalate "," (recs.map Encode) := by
  cases recs with
  | nil => rfl
  | cons r rs =>
    simp only [separated, bodyOf, Chunk.bytes, List.map_cons, String.intercalate,
      intercalate_go]

theorem sortKeys_tagRecord (tbl : Table) (t : Tag) :
    sortKeys (tagRecord tbl t) =
      [("description", Value.stringMap (descriptions t.Descs)),
       ("group", Value.string (tbl.G0 ++ "::" ++ tbl.Name)),
       ("path", Value.string (tbl.Name ++ ":" ++ t.Name)),
       ("type", Value.string t.Typ),
       ("writable", Value.bool (t.Writable == "true"))] := by
  rfl

/-! ### The decoder keeps its error -/

theorem token_error (d d' : Decoder) (e : Err) (h : d.Token = (Except.error e, d')) :
    d'.err.isSome = true := by
  unfold Decoder.Token Decoder.rawToken at h
  cases he : d.err with
  | some x =>
    simp only [he] at h
    split at h <;> simp only [Prod.mk.injEq] at h <;> (obtain ⟨_, h2⟩ := h; subst h2; simp [he])
  | none =>
    simp only [he] at h
    cases hi : d.input with
    | nil =>
      simp only [hi] at h
      split at h <;> simp only [Prod.mk.injEq] at h <;> (obtain ⟨_, h2⟩ := h; subst h2; simp)
    | cons r rest =>
      cases r with
      | fail x =>
        simp only [hi] at h
        split at h <;> simp only [Prod.mk.injEq] at h <;> (obtain ⟨_, h2⟩ := h; subst h2; simp)
      | tok l t =>
        simp only [hi] at h
        cases t with
        | StartElement n a => simp at h
        | EndElement n =>
          simp only at h
          cases hs : d.stk with
          | nil =>
            simp only [hs, Prod.mk.injEq] at h
            obtain ⟨_, h2⟩ := h; subst h2; simp
          | cons s stk =>
            simp only [hs] at h
            split at h
            · simp only [Prod.mk.injEq] at h
              obtain ⟨_, h2⟩ := h; subst h2; simp
            · split at h
              · simp only [Prod.mk.injEq] at h
                obtain ⟨_, h2⟩ := h; subst h2; simp
              · simp at h
        | CharData x => simp at h
        | Comment x => simp at h
        | ProcInst x y => simp at h
        | Directive x => simp at h

theorem token_of_err (d : Decoder) (h : d.err.isSome = true) :
    ∃ e, d.Token = (Except.error e, d) := by
  obtain ⟨x, hx⟩ := Option.isSome_iff_exists.mp h
  unfold Decoder.Token Decoder.rawToken
  simp only [hx]
  split
  · exact ⟨_, rfl⟩
  · exact ⟨_, rfl⟩

theorem skipLoop_error (fuel : Nat) (d d' : Decoder) (depth : Nat) (e : Err)
    (h : d.skipLoop fuel depth = (some e, d')) : d'.err.isSome = true := by
  induction fuel generalizing d depth with
  | zero => simp [Decoder.skipLoop] at h
  | succ n ih =>
    rw [Decoder.skipLoop] at h
    split at h
    · rename_i e1 d1 hT
      simp only [Prod.mk.injEq, Option.some.injEq] at h
      obtain ⟨_, h2⟩ := h; subst h2
      exact token_error d _ e1 hT
    · exact ih _ _ h
    · split at h
      · simp at h
      · exact ih _ _ h
    · exact ih _ _ h

theorem skip_error (d d' : Decoder) (e : Err) (h : d.Skip = (some e, d')) :
    d'.err.isSome = true :=
  skipLoop_error _ d d' 0 e h

theorem descLoop_error (fuel : Nat) (d d' : Decoder) (data : String) (e : Err)
    (h : d.descLoop fuel data = (Except.error e, d')) : d'.err.isSome = true := by
  induction fuel generalizing d data with
  | zero => simp [Decoder.descLoop] at h
  | succ n ih =>
    rw [Decoder.descLoop] at h
    split at h
    · rename_i e1 d1 hT
      simp only [Prod.mk.injEq, Except.error.injEq] at h
      obtain ⟨_, h2⟩ := h; subst h2
      exact token_error d _ e1 hT
    · split at h
      · rename_i e2 d2 hS
        simp only [Prod.mk.injEq, Except.error.injEq] at h
        obtain ⟨_, h2⟩ := h; subst h2
        exact skip_error _ _ e2 hS
      · exact ih _ _ h
    · simp at h
    · exact ih _ _ h
    · exact ih _ _ h

theorem unmarshalDesc_error (d d' : Decoder) (attr : List Attr) (e : Err)
    (h : d.unmarshalDesc attr = (Except.error e, d')) : d'.err.isSome = true := by
  unfold Decoder.unmarshalDesc at h
  split at h
  · simp at h
  · rename_i e1 d1 hL
    simp only [Prod.mk.injEq, Except.error.injEq] at h
    obtain ⟨_, h2⟩ := h; subst h2
    exact descLoop_error _ _ _ _ e1 hL

theorem tagLoop_error (fuel : Nat) (d d' : Decoder) (acc : List Desc) (e : Err)
    (h : d.tagLoop fuel acc = (Except.error e, d')) : d'.err.isSome = true := by
  induction fuel generalizing d acc with
  | zero => simp [Decoder.tagLoop] at h
  | succ n ih =>
    rw [Decoder.tagLoop] at h
    split at h
    · rename_i e1 d1 hT
      simp only [Prod.mk.injEq, Except.error.injEq] at h
      obtain ⟨_, h2⟩ := h; subst h2
      exact token_error d _ e1 hT
    · split at h
      · split at h
        · rename_i e2 d2 hS
          simp only [Prod.mk.injEq, Except.error.injEq] at h
          obtain ⟨_, h2⟩ := h; subst h2
          exact unmarshalDesc_error _ _ _ e2 hS
        · exact ih _ _ h
      · split at h
        · rename_i e2 d2 hS
          simp only [Prod.mk.injEq, Except.error.injEq] at h
          obtain ⟨_, h2⟩ := h; subst h2
          exact skip_error _ _ e2 hS
        · exact ih _ _ h
    · simp at h
    · exact ih _ _ h

theorem unmarshalTag_error (d d' : Decoder) (attr : List Attr) (e : Err)
    (h : d.unmarshalTag attr = (Except.error e, d')) : d'.err.isSome = true := by
  unfold Decoder.unmarshalTag at h
  split at h
  · simp at h
  · rename_i e1 d1 hL
    simp only [Prod.mk.injEq, Except.error.injEq] at h
    obtain ⟨_, h2⟩ := h; subst h2
    exact tagLoop_error _ _ _ _ e1 hL

theorem tableLoop_error (fuel : Nat) (d d' : Decoder) (acc : List Tag) (e : Err)
    (h : d.tableLoop fuel acc = (Except.error e, d')) : d'.err.isSome = true := by
  induction fuel generalizing d acc with
  | zero => simp [Decoder.tableLoop] at h
  | succ n ih =>
    rw [Decoder.tableLoop] at h
    split at h
    · rename_i e1 d1 hT
      simp only [Prod.mk.injEq, Except.error.injEq] at h
      obtain ⟨_, h2⟩ := h; subst h2
      exact token_error d _ e1 hT
    · split at h
      · split at h
        · rename_i e2 d2 hS
          simp only [Prod.mk.injEq, Except.error.injEq] at h
          obtain ⟨_, h2⟩ := h; subst h2
          exact unmarshalTag_error _ _ _ e2 hS
        · exact ih _ _ h
      · split at h
        · rename_i e2 d2 hS
          simp only [Prod.mk.injEq, Except.error.injEq] at h
          obtain ⟨_, h2⟩ := h; subst h2
          exact skip_error _ _ e2 hS
        · exact ih _ _ h
    · simp at h
    · exact ih _ _ h

/-- After a failed `DecodeElement` the decoder holds an error, and `Token` fails. -/
theorem decodeElement_error (d d' : Decoder) (attr : List Attr) (e : Err)
    (h : d.DecodeElement attr = (Except.error e, d')) :
    ∃ e', d'.Token = (Except.error e', d') := by
  apply token_of_err
  unfold Decoder.DecodeElement at h
  split at h
  · simp at h
  · rename_i e1 d1 hL
    simp only [Prod.mk.injEq, Except.error.injEq] at h
    obtain ⟨_, h2⟩ := h; subst h2
    exact tableLoop_error _ _ _ _ e1 hL

/-! ### The token loop returns -/

theorem token_length (d : Decoder) :
    (∀ t d', d.Token = (Except.ok t, d') → d'.input.length + 1 = d.input.length) ∧
    (d.Token).2.input.length ≤ d.input.length := by
  unfold Decoder.Token Decoder.rawToken
  cases he : d.err with
  | some x =>
    simp only [he]
    constructor
    · intro t d' h
      split at h <;> simp at h
    · split <;> simp
  | none =>
    simp only [he]
    cases hi : d.input with
    | nil =>
      simp only [hi]
      constructor
      · intro t d' h
        split at h <;> simp at h
      · split <;> simp
    | cons r rest =>
      cases r with
      | fail x =>
        simp only [hi]
        constructor
        · intro t d' h
          split at h <;> simp at h
        · split <;> simp
      | tok l t =>
        simp only [hi]
        cases t with
        | StartElement n a =>
          exact ⟨fun t d' h => by
            simp only [Prod.mk.injEq] at h
            obtain ⟨_, h2⟩ := h; subst h2; simp, by simp⟩
        | EndElement n =>
          simp only
          cases hs : d.stk with
          | nil => exact ⟨fun t d' h => by simp at h, by simp⟩
          | cons s stk =>
            simp only
            constructor
            · intro t d' h
              split at h
              · simp at h
              · split at h
                · simp at h
                · simp only [Prod.mk.injEq] at h
                  obtain ⟨_, h2⟩ := h; subst h2; simp
            · split
              · simp
              · split <;> simp
        | CharData x =>
          exact ⟨fun t d' h => by
            simp only [Prod.mk.injEq] at h
            obtain ⟨_, h2⟩ := h; subst h2; simp, by simp⟩
        | Comment x =>
          exact ⟨fun t d' h => by
            simp only [Prod.mk.injEq] at h
            obtain ⟨_, h2⟩ := h; subst h2; simp, by simp⟩
        | ProcInst x y =>
          exact ⟨fun t d' h => by
            simp only [Prod.mk.injEq] at h
            obtain ⟨_, h2⟩ := h; subst h2; simp, by simp⟩
        | Directive x =>
          exact ⟨fun t d' h => by
            simp only [Prod.mk.injEq] at h
            obtain ⟨_, h2⟩ := h; subst h2; simp, by simp⟩

theorem token_ok_length (d d' : Decoder) (t : Token) (h : d.Token = (Except.ok t, d')) :
    d'.input.length + 1 = d.input.length :=
  (token_length d).1 t d' h

theorem token_le (d d' : Decoder) (r : Except Err Token) (h : d.Token = (r, d')) :
    d'.input.length ≤ d.input.length := by
  have := (token_length d).2
  rw [h] at this
  exact this

theorem skipLoop_le (fuel : Nat) (d : Decoder) (depth : Nat) :
    (d.skipLoop fuel depth).2.input.length ≤ d.input.length := by
  induction fuel generalizing d depth with
  | zero => simp [Decoder.skipLoop]
  | succ n ih =>
    rw [Decoder.skipLoop]
    split
    · rename_i e d1 hT; exact token_le d d1 _ hT
    · rename_i a b d1 hT; exact le_trans (ih _ _) (token_le d d1 _ hT)
    · rename_i a d1 hT
      split
      · exact token_le d d1 _ hT
      · exact le_trans (ih _ _) (token_le d d1 _ hT)
    · exact le_trans (ih _ _) (token_le d _ _ (by assumption))

theorem skip_le (d d' : Decoder) (r : Option Err) (h : d.Skip = (r, d')) :
    d'.input.length ≤ d.input.length := by
  have := skipLoop_le (d.input.length + 1) d 0
  unfold Decoder.Skip at h
  rw [h] at this
  exact this

theorem descLoop_le (fuel : Nat) (d : Decoder) (data : String) :
    (d.descLoop fuel data).2.input.length ≤ d.input.length := by
  induction fuel generalizing d data with
  | zero => simp [Decoder.descLoop]
  | succ n ih =>
    rw [Decoder.descLoop]
    split
    · rename_i e d1 hT; exact token_le d d1 _ hT
    · rename_i a b d1 hT
      split
      · rename_i e2 d2 hS; exact le_trans (skip_le _ _ _ hS) (token_le d d1 _ hT)
      · rename_i d2 hS
        exact le_trans (ih _ _) (le_trans (skip_le _ _ _ hS) (token_le d d1 _ hT))
    · rename_i a d1 hT; exact token_le d d1 _ hT
    · rename_i s d1 hT; exact le_trans (ih _ _) (token_le d d1 _ hT)
    · exact le_trans (ih _ _) (token_le d _ _ (by assumption))

theorem unmarshalDesc_le (d d' : Decoder) (attr : List Attr) (r : Except Err Desc)
    (h : d.unmarshalDesc attr = (r, d')) : d'.input.length ≤ d.input.length := by
  have := descLoop_le (d.input.length + 1) d ""
  unfold Decoder.unmarshalDesc at h
  split at h <;> rename_i hL <;> rw [hL] at this <;> simp only [Prod.mk.injEq] at h <;>
    (obtain ⟨_, h2⟩ := h; subst h2; exact this)

theorem tagLoop_le (fuel : Nat) (d : Decoder) (acc : List Desc) :
    (d.tagLoop fuel acc).2.input.length ≤ d.input.length := by
  induction fuel generalizing d acc with
  | zero => simp [Decoder.tagLoop]
  | succ n ih =>
    rw [Decoder.tagLoop]
    split
    · rename_i e d1 hT; exact token_le d d1 _ hT
    · rename_i a b d1 hT
      split
      · split
        · rename_i e2 d2 hS
          exact le_trans (unmarshalDesc_le _ _ _ _ hS) (token_le d d1 _ hT)
        · rename_i x d2 hS
          exact le_trans (ih _ _) (le_trans (unmarshalDesc_le _ _ _ _ hS) (token_le d d1 _ hT))
      · split
        · rename_i e2 d2 hS; exact le_trans (skip_le _ _ _ hS) (token_le d d1 _ hT)
        · rename_i d2 hS
          exact le_trans (ih _ _) (le_trans (skip_le _ _ _ hS) (token_le d d1 _ hT))
    · rename_i a d1 hT; exact token_le d d1 _ hT
    · exact le_trans (ih _ _) (token_le d _ _ (by assumption))

theorem unmarshalTag_le (d d' : Decoder) (attr : List Attr) (r : Except Err Tag)
    (h : d.unmarshalTag attr = (r, d')) : d'.input.length ≤ d.input.length := by
  have := tagLoop_le (d.input.length + 1) d []
  unfold Decoder.unmarshalTag at h
  split at h <;> rename_i hL <;> rw [hL] at this <;> simp only [Prod.mk.injEq] at h <;>
    (obtain ⟨_, h2⟩ := h; subst h2; exact this)

theorem tableLoop_le (fuel : Nat) (d : Decoder) (acc : List Tag) :
    (d.tableLoop fuel acc).2.input.length ≤ d.input.length := by
  induction fuel generalizing d acc with
  | zero => simp [Decoder.tableLoop]
  | succ n ih =>
    rw [Decoder.tableLoop]
    split
    · rename_i e d1 hT; exact token_le d d1 _ hT
    · rename_i a b d1 hT
      split
      · split
        · rename_i e2 d2 hS
          exact le_trans (unmarshalTag_le _ _ _ _ hS) (token_le d d1 _ hT)
        · rename_i x d2 hS
          exact le_trans (ih _ _) (le_trans (unmarshalTag_le _ _ _ _ hS) (token_le d d1 _ hT))
      · split
        · rename_i e2 d2 hS; exact le_trans (skip_le _ _ _ hS) (token_le d d1 _ hT)
        · rename_i d2 hS
          exact le_trans (ih _ _) (le_trans (skip_le _ _ _ hS) (token_le d d1 _ hT))
    · rename_i a d1 hT; exact token_le d d1 _ hT
    · exact le_trans (ih _ _) (token_le d _ _ (by assumption))

theorem decodeElement_le (d d' : Decoder) (attr : List Attr) (r : Except Err Table)
    (h : d.DecodeElement attr = (r, d')) : d'.input.length ≤ d.input.length := by
  have := tableLoop_le (d.input.length + 1) d []
  unfold Decoder.DecodeElement at h
  split at h <;> rename_i hL <;> rw [hL] at this <;> simp only [Prod.mk.injEq] at h <;>
    (obtain ⟨_, h2⟩ := h; subst h2; exact this)

/-- A turn after which the handler still runs has read at least one token. -/
theorem iteration_reads (env : Env) (h : Handler) (he : h.exit = none)
    (hn : (iteration env h).exit = none) :
    (iteration env h).decoder.input.length + 1 ≤ h.decoder.input.length := by
  obtain ⟨w, first, decoder, iter, killed, exit⟩ := h
  simp only at he
  subst he
  by_cases hd : ctxDone env iter = true
  · simp [iteration, hd] at hn
  · have hd' : ctxDone env iter = false := by simpa using hd
    clear hd
    have hd := hd'
    rcases hT : decoder.Token with ⟨r, d⟩
    cases r with
    | error e =>
      simp only [iteration, hd, hT, Bool.false_eq_true, if_false] at hn
      split at hn <;> simp at hn
    | ok t =>
      have h1 := token_ok_length _ _ _ hT
      cases t with
      | StartElement n a =>
        by_cases hn' : n.Local = "table"
        · rcases hD : d.DecodeElement a with ⟨r', d'⟩
          have h2 := decodeElement_le _ _ _ _ hD
          cases r' with
          | error e =>
            simp only [iteration, hd, hT, hn', hD, if_true, if_false, Bool.false_eq_true]
            omega
          | ok tbl =>
            simp only [iteration, hd, hT, hn', hD, if_true, if_false, Bool.false_eq_true]
            rw [(emitTable_fields _ tbl rfl).2.2.2.1]
            simp only
            omega
        · simp only [iteration, hd, hT, hn', if_false, Bool.false_eq_true]
          omega
      | EndElement n => simp only [iteration, hd, hT, if_false, Bool.false_eq_true]; omega
      | CharData x => simp only [iteration, hd, hT, if_false, Bool.false_eq_true]; omega
      | Comment x => simp only [iteration, hd, hT, if_false, Bool.false_eq_true]; omega
      | ProcInst x y => simp only [iteration, hd, hT, if_false, Bool.false_eq_true]; omega
      | Directive x => simp only [iteration, hd, hT, if_false, Bool.false_eq_true]; omega

theorem start_input (env : Env) : (start env).decoder.input = env.stdout := by
  unfold start
  cases env.pipeErr with
  | some e => rfl
  | none =>
    cases env.startErr with
    | some e => rfl
    | none => rfl

theorem running_input (env : Env) (n : Nat) (h : (tagsHandlerAt env n).exit = none) :
    (tagsHandlerAt env n).decoder.input.length + n ≤ env.stdout.length := by
  induction n with
  | zero => simp [tagsHandlerAt, start_input]
  | succ n ih =>
    have hn := running_before env n h
    have h1 := ih hn
    rw [tagsHandlerAt_succ] at h ⊢
    have h2 := iteration_reads env _ hn h
    omega

/-- The handler returns: the token loop ends within one turn more than the output of
the subprocess has tokens. -/
theorem tagsHandler_returns (env : Env) : (tagsHandler env).exit ≠ none := by
  intro h
  have := running_input env (env.stdout.length + 1) h
  omega

theorem tagsHandler_of_start (env : Env) (x : Exit) (h : (start env).exit = some x) :
    tagsHandler env = start env := by
  have := stays_returned env 0 (env.stdout.length + 1) x h
  rw [Nat.zero_add] at this
  exact this

theorem iteration_parse_error (env : Env) (h : Handler) (err : Err) (d : Decoder)
    (he : h.exit = none) (hd : ctxDone env h.iter = false)
    (hT : h.decoder.Token = (Except.error err, d)) (hE : err.Error ≠ "EOF") :
    iteration env h =
      { h with iter := h.iter + 1, decoder := d,
               w := Error h.w ("Error parsing XML: " ++ err.Error) 500,
               exit := some Exit.parseError } := by
  obtain ⟨w, first, decoder, iter, killed, exit⟩ := h
  simp only at he hd hT
  subst he
  simp [iteration, hd, hT, hE]

/-- The turn at which the token reader reports an error other than the end of the input
is the last: the handler returns with the text of `http.Error` after the writes so far. -/
theorem parse_error_turn (env : Env) (n : Nat) (err : Err) (d : Decoder)
    (hn : (tagsHandlerAt env n).exit = none) (hd : ctxDone env n = false)
    (hT : (tagsHandlerAt env n).decoder.Token = (Except.error err, d))
    (hE : err.Error ≠ "EOF") :
    (tagsHandler env).exit = some Exit.parseError ∧
    (tagsHandler env).w.Code = 200 ∧
    (tagsHandler env).w.writes =
      (tagsHandlerAt env n).w.writes ++
        [Chunk.errorText ("Error parsing XML: " ++ err.Error)] ∧
    (tagsHandler env).w.Body =
      (tagsHandlerAt env n).w.Body ++ ("Error parsing XML: " ++ err.Error ++ "\n") ∧
    Chunk.closing ∉ (tagsHandler env).w.writes := by
  have hiter := iter_of_running env n hn
  have hit := iteration_parse_error env (tagsHandlerAt env n) err d hn (by rw [hiter]; exact hd)
    hT hE
  have hlen := running_input env n hn
  have hfin : tagsHandler env = tagsHandlerAt env (n + 1) := by
    unfold tagsHandler
    have e : env.stdout.length + 1 = (n + 1) + (env.stdout.length - n) := by omega
    rw [e]
    exact stays_returned env (n + 1) _ Exit.parseError (by rw [tagsHandlerAt_succ, hit])
  obtain ⟨recs, tail, hc, hwh, hw, _, _, ht⟩ := shape_at env n
  rw [hn] at ht
  simp only [Tail] at ht
  subst ht
  have hww : (tagsHandler env).w.writes = (tagsHandlerAt env n).w.writes ++
      [Chunk.errorText ("Error parsing XML: " ++ err.Error)] := by
    rw [hfin, tagsHandlerAt_succ, hit]
    simp [error_writes]
  refine ⟨by rw [hfin, tagsHandlerAt_succ, hit], ?_, hww, ?_, ?_⟩
  · rw [hfin, tagsHandlerAt_succ, hit]
    simp [Error, ResponseRecorder.Write, ResponseRecorder.WriteHeader, hwh, hc]
  · simp only [ResponseRecorder.Body, hww, bodyOf_append]
    simp [bodyOf, Chunk.bytes]
  · rw [hww, hw]
    cases recs with
    | nil => simp [separated]
    | cons r rs => simp [separated]

/-- The run whose check of `ctx.Done()` is ready at a turn it reaches returns there, with
`Kill` called and the response as it was. -/
theorem observed_run (env : Env) (n : Nat) (hd : ctxDone env n = true)
    (hn : (tagsHandlerAt env n).exit = none) :
    tagsHandler env =
      { tagsHandlerAt env n with killed := true, exit := some Exit.cancelled } := by
  have hiter := iter_of_running env n hn
  have hlen := running_input env n hn
  have hstep : tagsHandlerAt env (n + 1) =
      { tagsHandlerAt env n with killed := true, exit := some Exit.cancelled } := by
    rw [tagsHandlerAt_succ]
    rcases iteration_cases env _ hn with ⟨_, h1⟩ | ⟨h0, _⟩ | ⟨h0, _⟩ | ⟨h0, _⟩
    · exact h1
    · rw [hiter, hd] at h0; simp at h0
    · rw [hiter, hd] at h0; simp at h0
    · rw [hiter, hd] at h0; simp at h0
  obtain ⟨k, hk⟩ : ∃ k, env.stdout.length + 1 = (n + 1) + k :=
    ⟨env.stdout.length - n, by omega⟩
  unfold tagsHandler
  rw [hk, stays_returned env (n + 1) k Exit.cancelled (by rw [hstep]), hstep]

/-- A run that returns by another way than the check of `ctx.Done()` is the run of the
request that is never cancelled. -/
theorem unobserved_run (env : Env) (hx : (tagsHandler env).exit ≠ some Exit.cancelled) :
    tagsHandler { env with doneAt := none } = tagsHandler env := by
  cases h0 : (start env).exit with
  | some x =>
    rw [tagsHandler_of_start env x h0,
      tagsHandler_of_start { env with doneAt := none } x (by rw [start_congr]; exact h0)]
    exact start_congr env
  | none =>
    have hex : ∃ n, (tagsHandlerAt env n).exit = none ∧ (tagsHandlerAt env (n + 1)).exit ≠ none := by
      by_contra hcon
      have hall : ∀ m, (tagsHandlerAt env m).exit = none := by
        intro m
        induction m with
        | zero => exact h0
        | succ m ih =>
          by_contra h
          exact hcon ⟨m, ih, h⟩
      exact tagsHandler_returns env (hall _)
    obtain ⟨n, hn, hn1⟩ := hex
    have hlen := running_input env n hn
    have hiter := iter_of_running env n hn
    obtain ⟨k, hk⟩ : ∃ k, env.stdout.length + 1 = (n + 1) + k :=
      ⟨env.stdout.length - n, by omega⟩
    obtain ⟨x, hxx⟩ : ∃ x, (tagsHandlerAt env (n + 1)).exit = some x := by
      cases h : (tagsHandlerAt env (n + 1)).exit with
      | none => exact absurd h hn1
      | some x => exact ⟨x, rfl⟩
    have hfin : tagsHandler env = tagsHandlerAt env (n + 1) := by
      unfold tagsHandler
      rw [hk, stays_returned env (n + 1) k x hxx]
    have hdone : ctxDone env (tagsHandlerAt env n).iter = false := by
      rcases iteration_cases env _ hn with ⟨_, h1⟩ | ⟨h, _⟩ | ⟨h, _⟩ | ⟨h, _⟩
      · exfalso
        apply hx
        rw [hfin, tagsHandlerAt_succ, h1]
      · exact h
      · exact h
      · exact h
    have hstep : tagsHandlerAt { env with doneAt := none } (n + 1) = tagsHandlerAt env (n + 1) := by
      rw [tagsHandlerAt_succ, tagsHandlerAt_succ, uncancelled_agree env n hn]
      apply iteration_congr
      rw [ctxDone_never, hdone]
    have hfin' : tagsHandler { env with doneAt := none } =
        tagsHandlerAt { env with doneAt := none } (n + 1) := by
      unfold tagsHandler
      have e : ({ env with doneAt := none } : Env).stdout.length + 1 = (n + 1) + k := hk
      rw [e, stays_returned { env with doneAt := none } (n + 1) k x (by rw [hstep]; exact hxx)]
    rw [hfin', hfin, hstep]

/-- The response of a run that returns at the check of `ctx.Done()`. -/
theorem cancelled_at (env : Env) (n : Nat) (hd : ctxDone env n = true)
    (hn : (tagsHandlerAt env n).exit = none) :
    tagsHandlerAt { env with doneAt := none } n = tagsHandlerAt env n ∧
    (tagsHandler env).exit = some Exit.cancelled ∧
    (tagsHandler env).killed = true ∧
    (tagsHandler env).w = (tagsHandlerAt env n).w ∧
    (∃ ws, (tagsHandler { env with doneAt := none }).w.writes =
      (tagsHandler env).w.writes ++ ws) ∧
    (∃ rest, (tagsHandler { env with doneAt := none }).w.Body =
      (tagsHandler env).w.Body ++ rest) ∧
    Chunk.closing ∉ (tagsHandler env).w.writes ∧
    (∀ e, Chunk.errorText e ∉ (tagsHandler env).w.writes) ∧
    (tagsHandler env).w.Body.data.getLast? ≠ some '\x7d' := by
  have hrun := observed_run env n hd hn
  have hww : (tagsHandler env).w = (tagsHandlerAt env n).w := by rw [hrun]
  have hagree := uncancelled_agree env n hn
  have hlen := running_input env n hn
  obtain ⟨recs, tail, _, _, hw, _, _, ht⟩ := shape_at env n
  rw [hn] at ht
  simp only [Tail] at ht
  subst ht
  obtain ⟨k, hk⟩ : ∃ k, env.stdout.length + 1 = n + k :=
    ⟨env.stdout.length + 1 - n, by omega⟩
  obtain ⟨ws, hws⟩ := writes_mono { env with doneAt := none } n k
  have hws' : (tagsHandlerAt { env with doneAt := none } (env.stdout.length + 1)).w.writes =
      (tagsHandlerAt env n).w.writes ++ ws := by
    rw [hk, hws, hagree]
  refine ⟨hagree, by rw [hrun], by rw [hrun], hww, ?_, ?_, ?_, ?_, ?_⟩
  · exact ⟨ws, by rw [hww]; exact hws'⟩
  · refine ⟨bodyOf ws, ?_⟩
    simp only [ResponseRecorder.Body]
    rw [hww, ← bodyOf_append]
    exact congrArg bodyOf hws'
  · rw [hww, hw]
    cases recs with
    | nil => simp [separated]
    | cons r rs => simp [separated]
  · intro e
    rw [hww, hw]
    cases recs with
    | nil => simp [separated]
    | cons r rs => simp [separated]
  · rw [hww]
    simp only [ResponseRecorder.Body, hw, List.append_nil]
    rcases body_last recs with h | h <;> rw [h] <;> decide

/-- The `tag` children are among the `tag` elements at any depth. -/
theorem countTags_le_all (f : Forest) : f.countTags ≤ f.countAllTags := by
  induction f with
  | nil => simp [Forest.countTags, Forest.countAllTags]
  | elem l n a ch e nx ihc ihn =>
    simp only [Forest.countTags, Forest.countAllTags]
    split <;> omega
  | text l s nx ih => simpa [Forest.countTags, Forest.countAllTags] using ih
  | comment l s nx ih => simpa [Forest.countTags, Forest.countAllTags] using ih
  | procInst l t s nx ih => simpa [Forest.countTags, Forest.countAllTags] using ih
  | directive l s nx ih => simpa [Forest.countTags, Forest.countAllTags] using ih

/-- The `tag` elements that get a record are among the `tag` elements nested within
`table` elements. -/
theorem countTableTags_le_nested (f : Forest) : f.countTableTags ≤ f.countNestedTags := by
  induction f with
  | nil => simp [Forest.countTableTags, Forest.countNestedTags]
  | elem l n a ch e nx ihc ihn =>
    simp only [Forest.countTableTags, Forest.countNestedTags]
    have := countTags_le_all ch
    split <;> omega
  | text l s nx ih => simpa [Forest.countTableTags, Forest.countNestedTags] using ih
  | comment l s nx ih => simpa [Forest.countTableTags, Forest.countNestedTags] using ih
  | procInst l t s nx ih => simpa [Forest.countTableTags, Forest.countNestedTags] using ih
  | directive l s nx ih => simpa [Forest.countTableTags, Forest.countNestedTags] using ih

/-! ## The claims -/

/-- C1: when the run ends at the end of the input, the writes are the opening, the
records with one comma between two neighbours, and the closing; the body is the opening,
the encodings of the records (each the JSON text of the record followed by the line feed
that `Encode` writes) separated by single commas, and the closing; it is read as the
JSON object with the one key `tags` and the array of the objects of the records; and
the object of every record has exactly the keys `description` (an object of strings),
`group`, `path`, `type` (strings) and `writable` (a boolean). -/
theorem finished_body (env : Env) (hx : (tagsHandler env).exit = some Exit.finished) :
    (tagsHandler env).w.writes =
      Chunk.opening :: (separated (records (tagsHandler env).w.writes) ++ [Chunk.closing]) ∧
    (tagsHandler env).w.Body =
      "\x7b\"tags\":[" ++
        String.intercalate "," ((records (tagsHandler env).w.writes).map Encode) ++ "]\x7d" ∧
    parseJson (tagsHandler env).w.Body =
      some (Json.obj [("tags", Json.arr ((records (tagsHandler env).w.writes).map toJson))]) ∧
    ∀ r ∈ records (tagsHandler env).w.writes,
      ∃ (d : List (String × String)) (g p ty : String) (w : Bool),
        toJson r =
          Json.obj [("description", Json.obj (d.map (fun e => (e.1, Json.str e.2)))),
                    ("group", Json.str g), ("path", Json.str p), ("type", Json.str ty),
                    ("writable", Json.bool w)] := by
  obtain ⟨recs, tail, _, _, hw, _, hr, ht⟩ := shape_at env (env.stdout.length + 1)
  unfold tagsHandler at hx ⊢
  rw [hx] at ht
  simp only [Tail] at ht
  subst ht
  have hrec : records (tagsHandlerAt env (env.stdout.length + 1)).w.writes = recs := by
    rw [hw]
    exact records_writes recs _ (by intro c hc; simp at hc; subst hc; simp [Chunk.isRecord])
  rw [hrec]
  refine ⟨hw, ?_, ?_, ?_⟩
  · simp only [ResponseRecorder.Body, hw, bodyOf, bodyOf_append, bodyOf_intercalate,
      Chunk.bytes, String.append_assoc, String.append_empty]
  · simp only [ResponseRecorder.Body, hw]
    exact parse_body recs
  · intro r hmem
    obtain ⟨tbl, t, h⟩ := hr r hmem
    subst h
    refine ⟨sortKeys (descriptions t.Descs), tbl.G0 ++ "::" ++ tbl.Name,
      tbl.Name ++ ":" ++ t.Name, t.Typ, t.Writable == "true", ?_⟩
    rw [toJson, sortKeys_tagRecord]
    rfl

set_option maxRecDepth 100000 in
/-- C1 at a run: the scenario. -/
theorem finished_body_witness :
    (tagsHandler exifEnv).exit = some Exit.finished ∧
    parseJson (tagsHandler exifEnv).w.Body =
      some (Json.obj [("tags", Json.arr ((records (tagsHandler exifEnv).w.writes).map toJson))]) :=
  ⟨by decide, (finished_body exifEnv (by decide)).2.2.1⟩

set_option maxRecDepth 100000 in
/-- C2 as stated fails: in the well-formed output `nestedDoc` four `tag` elements are
nested within `table` elements, and the run writes one record, that of the one `tag`
element that is a child of the outer table; the tags below a child of the table and the
tag of the table inside the table are left out. -/
theorem nested_tags_not_emitted :
    nestedDoc.countNestedTags = 4 ∧
    (tagsHandler (docEnv nestedDoc)).exit = some Exit.finished ∧
    (records (tagsHandler (docEnv nestedDoc)).w.writes).length = 1 ∧
    (records (tagsHandler (docEnv nestedDoc)).w.writes).length ≠ nestedDoc.countNestedTags ∧
    (tagsHandler (docEnv nestedDoc)).w.Body =
      "\x7b\"tags\":[\x7b\"description\":\x7b\x7d,\"group\":\"::T\",\"path\":\"T:outer\",\"type\":\"\",\"writable\":false\x7d\n]\x7d" := by
  decide

/-- C2 as amended: for every output that the decoder reads to its end as well-nested
tokens, the run ends at the end of the input, and the records written are, in order, one
record for each `tag` element that is a child of a `table` element, for the `table`
elements that are not inside another `table` element, the tables in document order and
the tags in their order in the table; their number is the number of these `tag`
elements, and none of them is reordered, duplicated or dropped. The `tag` elements deeper
within a `table` element get no record: the records number at most the `tag` elements
nested within `table` elements. -/
theorem records_in_document_order (f : Forest) :
    (tagsHandler (docEnv f)).exit = some Exit.finished ∧
    (records (tagsHandler (docEnv f)).w.writes).map some =
      f.tables.flatMap (fun tbl => tbl.Tags.map (buildTag tbl)) ∧
    (records (tagsHandler (docEnv f)).w.writes).length = f.countTableTags ∧
    (records (tagsHandler (docEnv f)).w.writes).length ≤ f.countNestedTags ∧
    (tagsHandler (docEnv f)).w.writes =
      Chunk.opening :: (separated (records (tagsHandler (docEnv f)).w.writes) ++
        [Chunk.closing]) := by
  have hw := run_document_writes f
  have hr : records (tagsHandler (docEnv f)).w.writes = recordsOf f.tables := by
    rw [hw]
    exact records_writes _ _ (by intro c hc; simp at hc; subst hc; simp [Chunk.isRecord])
  refine ⟨by rw [run_document], ?_, ?_, ?_, ?_⟩
  · rw [hr]; exact recordsOf_some _
  · rw [hr]; exact recordsOf_length f
  · rw [hr, recordsOf_length f]; exact countTableTags_le_nested f
  · rw [hr]; exact hw

set_option maxRecDepth 100000 in
/-- C3: the record of a tag has the five entries `writable`, `path`, `group`,
`description` and `type`: `path` is the table name, a colon and the tag name, `group` is
`g0`, two colons and the table name, `type` is the type, `writable` is true exactly when
the attribute is the string `true` (a missing attribute is the empty string, an attribute
that is there gives its value), and `description` maps every language code to the text of
its last entry, each code once. The handler writes this record for the tag, after a comma
if it is not the first, and the decoder fills the table and its tags from the attributes.
For the scenario document the response holds the single record of the scenario. -/
theorem record_of_tag (tbl : Table) (t : Tag) :
    buildTag tbl t = some
      [("writable", Value.bool (t.Writable == "true")),
       ("path", Value.string (tbl.Name ++ ":" ++ t.Name)),
       ("group", Value.string (tbl.G0 ++ "::" ++ tbl.Name)),
       ("description", Value.stringMap (descriptions t.Descs)),
       ("type", Value.string t.Typ)] ∧
    ((t.Writable == "true") = true ↔ t.Writable = "true") ∧
    (∀ lang, List.lookup lang (descriptions t.Descs) =
      (t.Descs.reverse.find? (fun d => d.Lang == lang)).map Desc.Text) ∧
    ((descriptions t.Descs).map Prod.fst).Nodup ∧
    (∀ h : Handler, h.exit = none →
      (emitTag tbl h t).w.writes =
        h.w.writes ++ (if h.first then [] else [Chunk.comma]) ++
          [Chunk.record
            [("writable", Value.bool (t.Writable == "true")),
             ("path", Value.string (tbl.Name ++ ":" ++ t.Name)),
             ("group", Value.string (tbl.G0 ++ "::" ++ tbl.Name)),
             ("description", Value.stringMap (descriptions t.Descs)),
             ("type", Value.string t.Typ)]]) ∧
    (∀ attr : List Attr, (∀ a ∈ attr, a.Name.Local ≠ "writable") →
      attrValue "writable" attr = "") ∧
    (∀ (attr : List Attr) (a : Attr), a.Name.Local = "writable" →
      attrValue "writable" (attr ++ [a]) = a.Value) ∧
    (∀ (ch : Forest) (l l' : Nat) (n : Name) (attr : List Attr) (rest : List Raw)
        (s : List Name),
      Decoder.DecodeElement
          { input := ch.flat ++ Raw.tok l' (Token.EndElement n) :: rest, stk := n :: s,
            err := none, line := l } attr =
        (Except.ok { Name := attrValue "name" attr, G0 := attrValue "g0" attr,
                     Tags := ch.tags },
          { input := rest, stk := s, err := none, line := l' })) ∧
    (tagsHandler exifEnv).w.writes =
      [Chunk.opening,
       Chunk.record
         [("writable", Value.bool true), ("path", Value.string "EXIF:Width"),
          ("group", Value.string "Image::EXIF"),
          ("description", Value.stringMap [("en", "Image width")]),
          ("type", Value.string "int16u")],
       Chunk.closing] ∧
    (tagsHandler exifEnv).w.Body =
      "\x7b\"tags\":[\x7b\"description\":\x7b\"en\":\"Image width\"\x7d,\"group\":\"Image::EXIF\",\"path\":\"EXIF:Width\",\"type\":\"int16u\",\"writable\":true\x7d\n]\x7d" := by
  refine ⟨buildTag_eq tbl t, by simp, descriptions_lookup t.Descs, descriptions_nodup t.Descs,
    ?_, fun attr h => attrValue_missing _ attr h, fun attr a h => attrValue_last _ attr a h,
    decodeElement_children, by decide, by decide⟩
  intro h he
  rw [emitTag_eq tbl h t he]
  cases h.first <;> simp [write_writes, tagRecord]

set_option maxRecDepth 100000 in
/-- C4 as stated fails: in the run on a table of two tags, after the first three writes
(the opening, the record of the first tag, the comma of line 105) one comma is written
and one record, not the record less one. -/
theorem comma_waits_for_record :
    (tagsHandler (docEnv twoTagsDoc)).w.writes.take 3 =
      [Chunk.opening,
       Chunk.record
         [("writable", Value.bool false), ("path", Value.string "T:a"),
          ("group", Value.string "G::T"), ("description", Value.stringMap []),
          ("type", Value.string "")],
       Chunk.comma] ∧
    (tagsHandler (docEnv twoTagsDoc)).w.writes.take 3 <+:
      (tagsHandler (docEnv twoTagsDoc)).w.writes ∧
    commas ((tagsHandler (docEnv twoTagsDoc)).w.writes.take 3) = 1 ∧
    (records ((tagsHandler (docEnv twoTagsDoc)).w.writes.take 3)).length - 1 = 0 ∧
    commas ((tagsHandler (docEnv twoTagsDoc)).w.writes.take 3) ≠
      (records ((tagsHandler (docEnv twoTagsDoc)).w.writes.take 3)).length - 1 := by
  refine ⟨by decide, List.take_prefix _ _, by decide, by decide, by decide⟩

/-- C4 as amended: at every point of every run at which no comma waits for its record
the separating commas number the records less one (none for no record): after any number
of turns of the token loop, and at every earlier point of the writes whose last write is
not a comma; at the points between the write of a comma and the write of its record the
commas number the records. The writes are the opening,
the records with one comma between two neighbours, then nothing, the closing or an error
text; `first` is true exactly while no record is written; a comma stands only between two
records; a table with no tag, and a table that fails to decode, write nothing and leave
`first` as it is. -/
theorem comma_bookkeeping (env : Env) (n : Nat) :
    commas (tagsHandlerAt env n).w.writes = (records (tagsHandlerAt env n).w.writes).length - 1 ∧
    (∀ p, p <+: (tagsHandlerAt env n).w.writes → p.getLast? ≠ some Chunk.comma →
      commas p = (records p).length - 1) ∧
    (∀ p, p <+: (tagsHandlerAt env n).w.writes → p.getLast? = some Chunk.comma →
      commas p = (records p).length) ∧
    (∃ tail, (tagsHandlerAt env n).w.writes =
        Chunk.opening :: (separated (records (tagsHandlerAt env n).w.writes) ++ tail) ∧
      (tail = [] ∨ tail = [Chunk.closing] ∨ ∃ e, tail = [Chunk.errorText e])) ∧
    ((tagsHandlerAt env n).first = true ↔ records (tagsHandlerAt env n).w.writes = []) ∧
    List.Chain' Adjacent (tagsHandlerAt env n).w.writes ∧
    (∀ (h : Handler) (tbl : Table), tbl.Tags = [] → emitTable h tbl = h) ∧
    (∀ (h : Handler) (name : Name) (attr : List Attr) (d d' : Decoder) (e : Err),
      h.exit = none → ctxDone env h.iter = false →
      h.decoder.Token = (Except.ok (Token.StartElement name attr), d) → name.Local = "table" →
      d.DecodeElement attr = (Except.error e, d') →
      (iteration env h).w = h.w ∧ (iteration env h).first = h.first ∧
        (iteration env h).exit = none) := by
  obtain ⟨recs, tail, _, _, hw, hf, _, ht⟩ := shape_at env n
  have hp := plain_of_tail ht
  have hrec : records (tagsHandlerAt env n).w.writes = recs := by
    rw [hw]; exact records_writes recs tail hp
  refine ⟨?_, ?_, ?_, ?_, ?_, ?_, emitTable_nil, ?_⟩
  · rw [hrec, hw]; exact commas_writes recs tail hp
  · intro p hpre hl
    rw [hw] at hpre
    exact prefix_count recs tail p hp hpre hl
  · intro p hpre hl
    rw [hw] at hpre
    exact prefix_comma recs tail p hp hpre hl
  · exact ⟨tail, by rw [hrec]; exact hw, tail_cases ht⟩
  · rw [hrec]; exact hf
  · rw [hw]; exact chain_writes recs tail (tail_cases ht)
  · intro h name attr d d' e he hd hT hn hD
    obtain ⟨w, first, decoder, iter, killed, exit⟩ := h
    simp only at he hd hT
    subst he
    simp [iteration, hd, hT, hn, hD]

/-- C5: the record of a tag without description entries has the entry `description`, and
its value is the empty map, not a nil map: the encoder writes it as `{}`, the first
member of the object of the record, and the reader reads the text of the record as the
object whose member `description` is the empty object. -/
theorem empty_description (tbl : Table) (t : Tag) (hd : t.Descs = []) :
    ∃ tag, buildTag tbl t = some tag ∧
      List.lookup "description" tag = some (Value.stringMap []) ∧
      (Value.stringMap []).marshal = ['\x7b', '\x7d'] ∧
      marshal tag =
        "\x7b\"description\":\x7b\x7d,\"group\":".data ++ quote (tbl.G0 ++ "::" ++ tbl.Name) ++
          ",\"path\":".data ++ quote (tbl.Name ++ ":" ++ t.Name) ++
          ",\"type\":".data ++ quote t.Typ ++
          ",\"writable\":".data ++ (Value.bool (t.Writable == "true")).marshal ++ ['\x7d'] ∧
      toJson tag =
        Json.obj [("description", Json.obj []),
                  ("group", Json.str (tbl.G0 ++ "::" ++ tbl.Name)),
                  ("path", Json.str (tbl.Name ++ ":" ++ t.Name)),
                  ("type", Json.str t.Typ),
                  ("writable", Json.bool (t.Writable == "true"))] ∧
      Reads (marshal tag) (toJson tag) := by
  obtain ⟨name, typ, writable, descs⟩ := t
  simp only at hd
  subst hd
  refine ⟨tagRecord tbl (Tag.mk name typ writable []), buildTag_eq tbl _, ?_, rfl, ?_, ?_,
    reads_marshal _⟩
  · rfl
  · have hq : quote "description" = "\"description\"".data := by decide
    have hg : quote "group" = "\"group\"".data := by decide
    have hp : quote "path" = "\"path\"".data := by decide
    have hy : quote "type" = "\"type\"".data := by decide
    have hw : quote "writable" = "\"writable\"".data := by decide
    have hm : (Value.stringMap (descriptions [])).marshal = ['\x7b', '\x7d'] := rfl
    rw [marshal, object, sortKeys_tagRecord]
    simp only [members, hq, hg, hp, hy, hw, hm]
    simp [Value.marshal]
  · rw [toJson, sortKeys_tagRecord]
    rfl

/-- C5 at a tag: `Width` of the table `EXIF`, without description entries. -/
theorem empty_description_witness :
    (Tag.mk "Width" "int16u" "true" []).Descs = [] ∧
    ∃ tag, buildTag (Table.mk "EXIF" "Image" []) (Tag.mk "Width" "int16u" "true" []) = some tag ∧
      List.lookup "description" tag = some (Value.stringMap []) ∧
      String.mk (marshal tag) =
        "\x7b\"description\":\x7b\x7d,\"group\":\"Image::EXIF\",\"path\":\"EXIF:Width\",\"type\":\"int16u\",\"writable\":true\x7d" := by
  refine ⟨rfl, ?_⟩
  obtain ⟨tag, h1, h2, _, _, _, _⟩ :=
    empty_description (Table.mk "EXIF" "Image" []) (Tag.mk "Width" "int16u" "true" []) rfl
  refine ⟨tag, h1, h2, ?_⟩
  have : tag = tagRecord (Table.mk "EXIF" "Image" []) (Tag.mk "Width" "int16u" "true" []) := by
    rw [buildTag_eq] at h1
    exact (Option.some.inj h1).symm
  subst this
  decide

set_option maxRecDepth 100000 in
/-- C6 (the code where the claim fails): after a failed `DecodeElement` the decoder
holds its error and the next `Token` fails. In the run with a malformed first table and
a well-formed second one, the turn of the malformed table writes nothing and leaves the
second table unread in the decoder; the next turn gets the same syntax error and the
handler returns through `http.Error`: no record of the second table, no closing. -/
theorem malformed_table_ends_response :
    (∀ (d d' : Decoder) (attr : List Attr) (e : Err),
      d.DecodeElement attr = (Except.error e, d') → ∃ e', d'.Token = (Except.error e', d')) ∧
    (tagsHandlerAt malformedEnv 2).exit = none ∧
    (tagsHandlerAt malformedEnv 2).w.writes = [Chunk.opening] ∧
    (tagsHandlerAt malformedEnv 2).decoder.err =
      some (Err.SyntaxError "element <tag> closed by </oops>" 1) ∧
    (tagsHandlerAt malformedEnv 2).decoder.input =
      [Raw.tok 1 (Token.EndElement (localName "table")),
       Raw.tok 1 (Token.StartElement (localName "table") [attrOf "name" "B", attrOf "g0" "G"]),
       Raw.tok 1 (Token.StartElement (localName "tag") [attrOf "name" "y"]),
       Raw.tok 1 (Token.EndElement (localName "tag")),
       Raw.tok 1 (Token.EndElement (localName "table")),
       Raw.tok 1 (Token.EndElement (localName "taginfo"))] ∧
    (tagsHandler malformedEnv).exit = some Exit.parseError ∧
    records (tagsHandler malformedEnv).w.writes = [] ∧
    Chunk.closing ∉ (tagsHandler malformedEnv).w.writes ∧
    (tagsHandler malformedEnv).w.Body =
      "\x7b\"tags\":[Error parsing XML: XML syntax error on line 1: element <tag> closed by </oops>\n" := by
  refine ⟨decodeElement_error, by decide, by decide, by decide, by decide, by decide, by decide,
    by decide, by decide⟩

set_option maxRecDepth 100000 in
/-- C7 (the code where the claim fails): when the pipe cannot be had or the subprocess
cannot be started, the opening is already written: the status stays 200 and the body is
the opening followed by the error text. So it is when `exiftool` is not installed. -/
theorem start_failure_after_opening :
    (∀ (env : Env) (e : String), env.pipeErr = some e →
      (tagsHandler env).exit = some Exit.pipeFailed ∧ (tagsHandler env).w.Code = 200 ∧
      (tagsHandler env).w.Body =
        "\x7b\"tags\":[" ++ ("Failed to get stdout pipe: " ++ e ++ "\n")) ∧
    (∀ (env : Env) (e : String), env.pipeErr = none → env.startErr = some e →
      (tagsHandler env).exit = some Exit.startFailed ∧ (tagsHandler env).w.Code = 200 ∧
      (tagsHandler env).w.Body =
        "\x7b\"tags\":[" ++ ("Failed to start exiftool: " ++ e ++ "\n")) ∧
    (tagsHandler notInstalledEnv).exit = some Exit.startFailed ∧
    (tagsHandler notInstalledEnv).w.Code = 200 ∧
    (tagsHandler notInstalledEnv).w.Body =
      "\x7b\"tags\":[Failed to start exiftool: exec: \"exiftool\": executable file not found in $PATH\n" := by
  refine ⟨?_, ?_, by decide, by decide, by decide⟩
  · intro env e hp
    have hs : start env =
        { w := Error (NewRecorder.Write Chunk.opening) ("Failed to get stdout pipe: " ++ e) 500,
          first := true, decoder := NewDecoder env.stdout, iter := 0, killed := false,
          exit := some Exit.pipeFailed } := by
      simp [start, hp]
    rw [tagsHandler_of_start env Exit.pipeFailed (by rw [hs]), hs]
    refine ⟨rfl, rfl, ?_⟩
    simp [ResponseRecorder.Body, Error, ResponseRecorder.Write, ResponseRecorder.WriteHeader,
      NewRecorder, bodyOf, Chunk.bytes]
  · intro env e hp hst
    have hs : start env =
        { w := Error (NewRecorder.Write Chunk.opening) ("Failed to start exiftool: " ++ e) 500,
          first := true, decoder := NewDecoder env.stdout, iter := 0, killed := false,
          exit := some Exit.startFailed } := by
      simp [start, hp, hst]
    rw [tagsHandler_of_start env Exit.startFailed (by rw [hs]), hs]
    refine ⟨rfl, rfl, ?_⟩
    simp [ResponseRecorder.Body, Error, ResponseRecorder.Write, ResponseRecorder.WriteHeader,
      NewRecorder, bodyOf, Chunk.bytes]

set_option maxRecDepth 100000 in
/-- C8 as stated fails: a request cancelled after output is written, while the handler
waits in `decoder.Token()`, is not observed at the check of line 76. When the output of
the killed subprocess ends inside `taginfo` the handler returns through `http.Error`,
without calling `Kill`, and the error text follows the bytes written before; when the
output was complete the handler writes the closing. -/
theorem cancellation_unobserved :
    lateCancelEnv.doneAt = some 3 ∧
    (tagsHandlerAt lateCancelEnv 2).exit = none ∧
    (tagsHandlerAt lateCancelEnv 2).w.Body =
      "\x7b\"tags\":[\x7b\"description\":\x7b\x7d,\"group\":\"Image::EXIF\",\"path\":\"EXIF:Width\",\"type\":\"int16u\",\"writable\":true\x7d\n" ∧
    (tagsHandler lateCancelEnv).exit = some Exit.parseError ∧
    (tagsHandler lateCancelEnv).killed = false ∧
    (tagsHandler lateCancelEnv).w.Body =
      "\x7b\"tags\":[\x7b\"description\":\x7b\x7d,\"group\":\"Image::EXIF\",\"path\":\"EXIF:Width\",\"type\":\"int16u\",\"writable\":true\x7d\nError parsing XML: XML syntax error on line 1: unexpected EOF\n" ∧
    (tagsHandler lateCancelEnv).w.Body ≠ (tagsHandlerAt lateCancelEnv 2).w.Body ∧
    cancelAtEndEnv.doneAt = some 4 ∧
    (tagsHandlerAt cancelAtEndEnv 3).exit = none ∧
    (tagsHandler cancelAtEndEnv).exit = some Exit.finished ∧
    Chunk.closing ∈ (tagsHandler cancelAtEndEnv).w.writes ∧
    (tagsHandler cancelAtEndEnv).w.Body =
      "\x7b\"tags\":[\x7b\"description\":\x7b\"en\":\"Image width\"\x7d,\"group\":\"Image::EXIF\",\"path\":\"EXIF:Width\",\"type\":\"int16u\",\"writable\":true\x7d\n]\x7d" := by
  decide

/-- C8 as amended: a run returns through the check of `ctx.Done()` of line 76 exactly
when the check finds the request cancelled at a turn the run reaches. Then the handler
kills the subprocess and returns with the response as it was at that turn, the run being
up to there the one of the request never cancelled: the body is a part of the body of
the run never cancelled, from its start, and neither the closing nor an error text is
written (the body does not end with the closing brace). A cancellation that no check
finds, the handler waiting in `decoder.Token()` or having returned, changes nothing: the
run is the one of the request never cancelled, on the output the subprocess gave. -/
theorem cancellation_truncates (env : Env) :
    ((tagsHandler env).exit = some Exit.cancelled ↔
      ∃ n, ctxDone env n = true ∧ (tagsHandlerAt env n).exit = none) ∧
    (∀ n, ctxDone env n = true → (tagsHandlerAt env n).exit = none →
      tagsHandlerAt { env with doneAt := none } n = tagsHandlerAt env n ∧
      (tagsHandler env).exit = some Exit.cancelled ∧
      (tagsHandler env).killed = true ∧
      (tagsHandler env).w = (tagsHandlerAt env n).w ∧
      (∃ ws, (tagsHandler { env with doneAt := none }).w.writes =
        (tagsHandler env).w.writes ++ ws) ∧
      (∃ rest, (tagsHandler { env with doneAt := none }).w.Body =
        (tagsHandler env).w.Body ++ rest) ∧
      Chunk.closing ∉ (tagsHandler env).w.writes ∧
      (∀ e, Chunk.errorText e ∉ (tagsHandler env).w.writes) ∧
      (tagsHandler env).w.Body.data.getLast? ≠ some '\x7d') ∧
    ((tagsHandler env).exit ≠ some Exit.cancelled →
      tagsHandler { env with doneAt := none } = tagsHandler env) := by
  refine ⟨⟨?_, ?_⟩, cancelled_at env, unobserved_run env⟩
  · intro hx
    obtain ⟨n, _, hn, hlast⟩ := last_turn env _ _ hx (by decide) (by decide)
    unfold tagsHandler at hx
    rw [hlast] at hx
    have hiter := iter_of_running env n hn
    rcases iteration_cases env _ hn with ⟨hd, _⟩ | ⟨_, err, d, _, _, h1⟩ |
        ⟨_, err, d, _, hE, h1⟩ | ⟨_, h1, _⟩
    · exact ⟨n, by rw [← hiter]; exact hd, hn⟩
    · rw [h1] at hx; simp at hx
    · rw [h1] at hx; simp at hx
    · rw [h1] at hx; simp at hx
  · rintro ⟨n, hd, hn⟩
    exact (cancelled_at env n hd hn).2.1

set_option maxRecDepth 100000 in
/-- C8 as amended, at a run: the scenario with the cancellation found at the check of
turn 2, after the record is written. -/
theorem cancellation_truncates_witness :
    ctxDone cancelledEnv 2 = true ∧
    (tagsHandlerAt cancelledEnv 2).exit = none ∧
    (tagsHandler cancelledEnv).w.Body =
      "\x7b\"tags\":[\x7b\"description\":\x7b\"en\":\"Image width\"\x7d,\"group\":\"Image::EXIF\",\"path\":\"EXIF:Width\",\"type\":\"int16u\",\"writable\":true\x7d\n" ∧
    tagsHandlerAt { cancelledEnv with doneAt := none } 2 = tagsHandlerAt cancelledEnv 2 ∧
    (tagsHandler cancelledEnv).exit = some Exit.cancelled ∧
    (tagsHandler cancelledEnv).killed = true ∧
    (tagsHandler cancelledEnv).w = (tagsHandlerAt cancelledEnv 2).w ∧
    (∃ ws, (tagsHandler { cancelledEnv with doneAt := none }).w.writes =
      (tagsHandler cancelledEnv).w.writes ++ ws) ∧
    (∃ rest, (tagsHandler { cancelledEnv with doneAt := none }).w.Body =
      (tagsHandler cancelledEnv).w.Body ++ rest) ∧
    Chunk.closing ∉ (tagsHandler cancelledEnv).w.writes ∧
    (∀ e, Chunk.errorText e ∉ (tagsHandler cancelledEnv).w.writes) ∧
    (tagsHandler cancelledEnv).w.Body.data.getLast? ≠ some '\x7d' :=
  ⟨by decide, by decide, by decide,
    (cancellation_truncates cancelledEnv).2.1 2 (by decide) (by decide)⟩

/-- C9: every run returns, and at every point of every run, whatever the subprocess does
and whether or not the request is cancelled, the recorded status is 200 and the body is
not empty and starts with the opening `{"tags":[`; the same holds of the finished run. -/
theorem status_committed (env : Env) (n : Nat) :
    (tagsHandlerAt env n).w.Code = 200 ∧
    (tagsHandlerAt env n).w.Body ≠ "" ∧
    (∃ rest, (tagsHandlerAt env n).w.Body = "\x7b\"tags\":[" ++ rest) ∧
    (tagsHandler env).exit ≠ none ∧
    (tagsHandler env).w.Code = 200 ∧
    (tagsHandler env).w.Body ≠ "" ∧
    (∃ rest, (tagsHandler env).w.Body = "\x7b\"tags\":[" ++ rest) := by
  have key : ∀ m, (tagsHandlerAt env m).w.Code = 200 ∧ (tagsHandlerAt env m).w.Body ≠ "" ∧
      ∃ rest, (tagsHandlerAt env m).w.Body = "\x7b\"tags\":[" ++ rest := by
    intro m
    obtain ⟨recs, tail, hc, _, hw, _⟩ := shape_at env m
    have hb : (tagsHandlerAt env m).w.Body = "\x7b\"tags\":[" ++ bodyOf (separated recs ++ tail) := by
      simp [ResponseRecorder.Body, hw, bodyOf, Chunk.bytes]
    refine ⟨hc, ?_, _, hb⟩
    rw [hb]
    intro h
    have := congrArg String.length h
    simp only [String.length_append] at this
    have h9 : "\x7b\"tags\":[".length = 9 := by decide
    rw [h9] at this
    have h0 : "".length = 0 := rfl
    omega
  exact ⟨(key n).1, (key n).2.1, (key n).2.2, tagsHandler_returns env, (key _).1, (key _).2.1,
    (key _).2.2⟩

set_option maxRecDepth 100000 in
/-- C10 (the code where the claim fails): at the turn at which the token reader reports
an error other than the end of the input, `http.Error` of line 89 runs after the header
is committed: the status stays 200 and the text `Error parsing XML: ` with the error
that `decoder.Token()` returned and a line feed is written after the bytes written
before; the closing is not written. So it is when the subprocess dies after the first
table: the body is not only truncated. -/
theorem parse_error_text_appended :
    (∀ (env : Env) (n : Nat) (err : Err) (d : Decoder),
      (tagsHandlerAt env n).exit = none → ctxDone env n = false →
      (tagsHandlerAt env n).decoder.Token = (Except.error err, d) → err.Error ≠ "EOF" →
      (tagsHandler env).exit = some Exit.parseError ∧
      (tagsHandler env).w.Code = 200 ∧
      (tagsHandler env).w.writes =
        (tagsHandlerAt env n).w.writes ++
          [Chunk.errorText ("Error parsing XML: " ++ err.Error)] ∧
      (tagsHandler env).w.Body =
        (tagsHandlerAt env n).w.Body ++ ("Error parsing XML: " ++ err.Error ++ "\n") ∧
      Chunk.closing ∉ (tagsHandler env).w.writes) ∧
    (tagsHandlerAt truncatedEnv 2).exit = none ∧
    (tagsHandlerAt truncatedEnv 2).decoder.Token =
      (Except.error (Err.SyntaxError "unexpected EOF" 1),
        { input := [], stk := [localName "taginfo"], err := some Err.EOF, line := 1 }) ∧
    (tagsHandlerAt truncatedEnv 2).w.Body =
      "\x7b\"tags\":[\x7b\"description\":\x7b\x7d,\"group\":\"Image::EXIF\",\"path\":\"EXIF:Width\",\"type\":\"int16u\",\"writable\":true\x7d\n" ∧
    (tagsHandler truncatedEnv).exit = some Exit.parseError ∧
    (tagsHandler truncatedEnv).w.Code = 200 ∧
    (tagsHandler truncatedEnv).w.Body =
      "\x7b\"tags\":[\x7b\"description\":\x7b\x7d,\"group\":\"Image::EXIF\",\"path\":\"EXIF:Width\",\"type\":\"int16u\",\"writable\":true\x7d\nError parsing XML: XML syntax error on line 1: unexpected EOF\n" ∧
    (tagsHandler truncatedEnv).w.Body ≠ (tagsHandlerAt truncatedEnv 2).w.Body := by
  refine ⟨parse_error_turn, by decide, by rfl, by decide, by decide, by decide, by decide,
    by decide⟩

end Exiftool
